import Mathlib

/-!
Verification development for the segmented channel-data file format engine
(TDMS-style) exercised by the repository's writer/reader scripts.

The repository's Python scripts are thin glue over an external writer/reader
library; the format engine itself (property codec, object paths, metadata
registry, segment writer, chunked data encoder, file index / reader, lazy
channel accessor) is specified in `spec.md` but its code is not part of the
repository sources.  All engine definitions below are therefore modelled from
the spec.  Bytes are modelled as natural numbers (< 256 in well-formed data),
files as lists of bytes, and machine values (int32, float64, ...) as their raw
little-endian bit patterns, so that "byte-exact" claims are meaningful without
floating-point semantics.
-/

namespace Tdms

/-! ### Variable-length (LEB128-style) natural number encoding

Modelled from the spec: the lead-in's "metadata length" and "raw-data length"
fields are "unsigned integer" fields; we use a self-delimiting base-128
encoding so that all sizes round-trip without overflow side conditions. -/

/-- Decode a self-delimiting base-128 natural number from a byte stream,
returning the value and the remaining bytes.  Fails (`none`) exactly when the
stream runs out before the terminating byte. -/
def decNat : List Nat → Option (Nat × List Nat)
  | [] => none
  | b :: bs =>
    if b < 128 then some (b, bs)
    else
      match decNat bs with
      | some (m, r) => some (b - 128 + 128 * m, r)
      | none => none

/-- Fueled worker for `encNat`; the fuel is an upper bound on the value, which
is enough since each step divides by 128. -/
def encNatAux : Nat → Nat → List Nat
  | 0, n => [n % 128]
  | f + 1, n => if n < 128 then [n] else (n % 128 + 128) :: encNatAux f (n / 128)

/-- Encode a natural number in self-delimiting base-128 form. -/
def encNat (n : Nat) : List Nat := encNatAux n n

theorem decNat_encNatAux (f : Nat) : ∀ n r, n ≤ f →
    decNat (encNatAux f n ++ r) = some (n, r) := by
  induction f with
  | zero =>
    intro n r hn
    interval_cases n
    simp [encNatAux, decNat]
  | succ f ih =>
    intro n r hn
    by_cases h : n < 128
    · simp [encNatAux, h, decNat]
    · have hdiv : n / 128 < n := Nat.div_lt_self (by omega) (by norm_num)
      have hle : n / 128 ≤ f := by omega
      simp only [encNatAux, h, if_false, List.cons_append, decNat, ih (n / 128) r hle]
      have h1 : ¬ (n % 128 + 128 < 128) := by omega
      simp only [h1, if_false]
      have hmd : n % 128 + 128 * (n / 128) = n := Nat.mod_add_div n 128
      have h2 : n % 128 + 128 - 128 + 128 * (n / 128) = n := by omega
      rw [h2]

/-- Round trip for the base-128 integer codec. -/
theorem decNat_encNat (n : Nat) (r : List Nat) :
    decNat (encNat n ++ r) = some (n, r) :=
  decNat_encNatAux n n r (Nat.le_refl n)

theorem encNatAux_ne_nil (f n : Nat) : encNatAux f n ≠ [] := by
  cases f with
  | zero => simp [encNatAux]
  | succ f => by_cases h : n < 128 <;> simp [encNatAux, h]

theorem encNat_ne_nil (n : Nat) : encNat n ≠ [] := encNatAux_ne_nil n n

/-- Decoding a strict prefix of an encoded number fails (the terminating byte
is missing). -/
theorem decNat_strict_prefix_aux (f : Nat) : ∀ n q, n ≤ f →
    (∃ r, q ++ r = encNatAux f n ∧ r ≠ []) → decNat q = none := by
  induction f with
  | zero =>
    intro n q hn hex
    obtain ⟨r, hqr, hr⟩ := hex
    cases q with
    | nil => simp [decNat]
    | cons a as =>
      exfalso
      apply hr
      have hlen := congrArg List.length hqr
      simp only [List.length_append, List.length_cons, List.length_nil, encNatAux] at hlen
      have : r.length = 0 := by omega
      exact List.length_eq_zero.mp this
  | succ f ih =>
    intro n q hn hex
    obtain ⟨r, hqr, hr⟩ := hex
    by_cases h : n < 128
    · cases q with
      | nil => simp [decNat]
      | cons a as =>
        exfalso
        apply hr
        have hlen := congrArg List.length hqr
        simp only [List.length_append, List.length_cons, List.length_nil, encNatAux, h,
          if_true] at hlen
        have : r.length = 0 := by omega
        exact List.length_eq_zero.mp this
    · simp only [encNatAux, h, if_false] at hqr
      cases q with
      | nil => simp [decNat]
      | cons a as =>
        simp only [List.cons_append, List.cons.injEq] at hqr
        have ha : a = n % 128 + 128 := hqr.1
        have hdiv : n / 128 < n := Nat.div_lt_self (by omega) (by norm_num)
        have has : decNat as = none :=
          ih (n / 128) as (Nat.lt_succ_iff.mp (Nat.lt_of_lt_of_le hdiv hn)) ⟨r, hqr.2, hr⟩
        have h1 : ¬ (a < 128) := by rw [ha]; omega
        simp [decNat, h1, has]

/-- Dichotomy used for truncation analysis: a byte stream that begins like
`encNat n ++ rest` either contains the whole `encNat n` (and decoding
continues into the remainder) or is cut inside it (and decoding fails). -/
theorem decNat_append_cases (n : Nat) (q cut rest : List Nat)
    (h : q ++ cut = encNat n ++ rest) :
    (∃ q2, q = encNat n ++ q2 ∧ q2 ++ cut = rest) ∨ (cut ≠ [] → decNat q = none) := by
  have hq1 : q <+: encNat n ++ rest := ⟨cut, h⟩
  have hq2 : encNat n <+: encNat n ++ rest := ⟨rest, rfl⟩
  rcases List.prefix_or_prefix_of_prefix hq1 hq2 with ⟨r, hqr⟩ | ⟨q2, hq2⟩
  · by_cases hre : r = []
    · subst hre
      rw [List.append_nil] at hqr
      subst hqr
      left
      exact ⟨[], by simp, by simpa using List.append_cancel_left h⟩
    · right
      intro _
      exact decNat_strict_prefix_aux n n q (Nat.le_refl n) ⟨r, hqr, hre⟩
  · left
    refine ⟨q2, hq2.symm, ?_⟩
    rw [← hq2, List.append_assoc] at h
    exact List.append_cancel_left h

/-! ### Fixed-width little-endian value encoding (raw channel data) -/

/-- Encode the low `k` bytes of a value, little-endian. -/
def natLE : Nat → Nat → List Nat
  | 0, _ => []
  | k + 1, v => v % 256 :: natLE k (v / 256)

/-- Reassemble a little-endian byte list into a natural number. -/
def leVal : List Nat → Nat
  | [] => 0
  | b :: bs => b + 256 * leVal bs

theorem natLE_length (k v : Nat) : (natLE k v).length = k := by
  induction k generalizing v with
  | zero => simp [natLE]
  | succ k ih => simp [natLE, ih]

theorem leVal_natLE (k : Nat) : ∀ v, v < 256 ^ k → leVal (natLE k v) = v := by
  induction k with
  | zero =>
    intro v hv
    interval_cases v
    simp [natLE, leVal]
  | succ k ih =>
    intro v hv
    have h1 : v / 256 < 256 ^ k := by
      rw [Nat.div_lt_iff_lt_mul (by norm_num)]
      calc v < 256 ^ (k + 1) := hv
        _ = 256 ^ k * 256 := by ring
    simp only [natLE, leVal, ih (v / 256) h1]
    omega

/-! ### Data model: value types, property values, object paths -/

/-- Modelled from the spec: the scalar value-type union of the PropertyValue
codec and of channel raw data (§4.1, §3).  Floating point values are carried
as raw bit patterns. -/
inductive TdsType where
  | int32
  | int64
  | float32
  | float64
  | boolean
  | tstring
  | timestamp
deriving DecidableEq

/-- Byte width of one raw-data element of the given type (string-valued
channels are not exercised by the scripts; they get a 1-byte placeholder). -/
def tsize : TdsType → Nat
  | .int32 => 4
  | .int64 => 8
  | .float32 => 4
  | .float64 => 8
  | .boolean => 1
  | .tstring => 1
  | .timestamp => 16

theorem tsize_pos (t : TdsType) : 0 < tsize t := by cases t <;> simp [tsize]

/-- Modelled from the spec: a typed scalar property value (§4.1).  Numeric and
timestamp payloads are raw bit patterns (`Nat`); strings are codepoint lists. -/
inductive PropValue where
  | pInt32 (v : Nat)
  | pInt64 (v : Nat)
  | pFloat32 (bits : Nat)
  | pFloat64 (bits : Nat)
  | pBool (b : Bool)
  | pString (s : List Nat)
  | pTimestamp (v : Nat)
deriving DecidableEq

/-- Modelled from the spec: the three-level object hierarchy addressed by the
ObjectPath resolver (§4.2): root, group, channel. -/
inductive ObjPath where
  | root
  | group (g : List Nat)
  | channel (g c : List Nat)
deriving DecidableEq

/-- One entry of a segment's metadata block: the object path, the property
diff transmitted in this segment, and — for channels carrying a value type
declaration — the value type and this segment's per-channel value count
(spec §6, metadata block row). -/
structure MetaEntry where
  path : ObjPath
  props : List (List Nat × PropValue)
  info : Option (TdsType × Nat)
deriving DecidableEq

/-! ### Counted-list decoding -/

/-- Decode exactly `k` items with the item decoder `dec`. -/
def decList (dec : List Nat → Option (α × List Nat)) : Nat → List Nat → Option (List α × List Nat)
  | 0, bs => some ([], bs)
  | k + 1, bs =>
    match dec bs with
    | some (a, bs1) =>
      match decList dec k bs1 with
      | some (as, r) => some (a :: as, r)
      | none => none
    | none => none

theorem decList_flatMap (dec : List Nat → Option (α × List Nat)) (enc : α → List Nat)
    (hd : ∀ a r, dec (enc a ++ r) = some (a, r)) :
    ∀ (as : List α) (r : List Nat),
      decList dec as.length (as.flatMap enc ++ r) = some (as, r) := by
  intro as
  induction as with
  | nil => intro r; simp [decList]
  | cons a as ih =>
    intro r
    simp only [List.flatMap_cons, List.length_cons, List.append_assoc, decList, hd, ih]

/-! ### Name, property, path, metadata-entry codecs (spec §4.1, §4.2, §6) -/

/-- Encode a name (codepoint list): length then each codepoint. -/
def encName (nm : List Nat) : List Nat := encNat nm.length ++ nm.flatMap encNat

/-- Decode a name. -/
def decName (bs : List Nat) : Option (List Nat × List Nat) :=
  match decNat bs with
  | some (k, r) => decList decNat k r
  | none => none

theorem decName_encName (nm : List Nat) (r : List Nat) :
    decName (encName nm ++ r) = some (nm, r) := by
  simp only [decName, encName, List.append_assoc, decNat_encNat,
    decList_flatMap decNat encNat decNat_encNat]

/-- Modelled from the spec: `encode(value) -> bytes` of the PropertyValue
codec (§4.1): a fixed tag byte followed by the payload. -/
def encProp : PropValue → List Nat
  | .pInt32 v => 0 :: encNat v
  | .pInt64 v => 1 :: encNat v
  | .pFloat32 v => 2 :: encNat v
  | .pFloat64 v => 3 :: encNat v
  | .pBool b => 4 :: [if b then 1 else 0]
  | .pString s => 5 :: encName s
  | .pTimestamp v => 6 :: encNat v

/-- Modelled from the spec: `decode(bytes) -> value` of the PropertyValue
codec (§4.1); an unknown tag fails (`FormatError: unknown property type`). -/
def decProp : List Nat → Option (PropValue × List Nat)
  | [] => none
  | tag :: bs =>
    match tag with
    | 0 => (decNat bs).map fun p => (.pInt32 p.1, p.2)
    | 1 => (decNat bs).map fun p => (.pInt64 p.1, p.2)
    | 2 => (decNat bs).map fun p => (.pFloat32 p.1, p.2)
    | 3 => (decNat bs).map fun p => (.pFloat64 p.1, p.2)
    | 4 =>
      match bs with
      | [] => none
      | b :: r => some (.pBool (b == 1), r)
    | 5 => (decName bs).map fun p => (.pString p.1, p.2)
    | 6 => (decNat bs).map fun p => (.pTimestamp p.1, p.2)
    | _ => none

theorem decProp_encProp (v : PropValue) (r : List Nat) :
    decProp (encProp v ++ r) = some (v, r) := by
  cases v with
  | pBool b => cases b <;> simp [encProp, decProp]
  | pString s => simp [encProp, decProp, decName_encName]
  | _ => simp [encProp, decProp, decNat_encNat]

/-- Encode one (key, value) property pair. -/
def encKV (kv : List Nat × PropValue) : List Nat := encName kv.1 ++ encProp kv.2

/-- Decode one (key, value) property pair. -/
def decKV (bs : List Nat) : Option ((List Nat × PropValue) × List Nat) :=
  match decName bs with
  | some (k, r) =>
    match decProp r with
    | some (v, r2) => some ((k, v), r2)
    | none => none
  | none => none

theorem decKV_encKV (kv : List Nat × PropValue) (r : List Nat) :
    decKV (encKV kv ++ r) = some (kv, r) := by
  simp [decKV, encKV, decName_encName, decProp_encProp]

/-- Modelled from the spec: the ObjectPath resolver's canonical encoding of a
(kind, group?, channel?) triple (§4.2): a kind tag followed by the names. -/
def encPath : ObjPath → List Nat
  | .root => [0]
  | .group g => 1 :: encName g
  | .channel g c => 2 :: (encName g ++ encName c)

/-- Decode a canonical object path; a malformed kind tag fails
(`FormatError: invalid object path`). -/
def decPath : List Nat → Option (ObjPath × List Nat)
  | [] => none
  | tag :: bs =>
    match tag with
    | 0 => some (.root, bs)
    | 1 => (decName bs).map fun p => (.group p.1, p.2)
    | 2 =>
      match decName bs with
      | some (g, r) =>
        match decName r with
        | some (c, r2) => some (.channel g c, r2)
        | none => none
      | none => none
    | _ => none

theorem decPath_encPath (p : ObjPath) (r : List Nat) :
    decPath (encPath p ++ r) = some (p, r) := by
  cases p <;> simp [encPath, decPath, decName_encName]

/-- Encode a channel's optional (value type, per-segment count) declaration. -/
def encInfo : Option (TdsType × Nat) → List Nat
  | none => [0]
  | some (t, n) =>
    1 :: (match t with
      | .int32 => 0
      | .int64 => 1
      | .float32 => 2
      | .float64 => 3
      | .boolean => 4
      | .tstring => 5
      | .timestamp => 6) :: encNat n

/-- Decode a type code byte. -/
def decType : Nat → Option TdsType
  | 0 => some .int32
  | 1 => some .int64
  | 2 => some .float32
  | 3 => some .float64
  | 4 => some .boolean
  | 5 => some .tstring
  | 6 => some .timestamp
  | _ => none

/-- Decode a channel's optional (value type, per-segment count) declaration. -/
def decInfo : List Nat → Option (Option (TdsType × Nat) × List Nat)
  | [] => none
  | 0 :: bs => some (none, bs)
  | 1 :: tc :: bs =>
    match decType tc with
    | some t => (decNat bs).map fun p => (some (t, p.1), p.2)
    | none => none
  | _ => none

theorem decInfo_encInfo (i : Option (TdsType × Nat)) (r : List Nat) :
    decInfo (encInfo i ++ r) = some (i, r) := by
  match i with
  | none => simp [encInfo, decInfo]
  | some (t, n) => cases t <;> simp [encInfo, decInfo, decType, decNat_encNat]

/-- Encode one metadata-block entry (spec §6): object path, property diff,
optional channel value-type/count declaration. -/
def encEntry (e : MetaEntry) : List Nat :=
  encPath e.path ++ encNat e.props.length ++ e.props.flatMap encKV ++ encInfo e.info

/-- Decode one metadata-block entry. -/
def decEntry (bs : List Nat) : Option (MetaEntry × List Nat) :=
  match decPath bs with
  | some (p, r1) =>
    match decNat r1 with
    | some (k, r2) =>
      match decList decKV k r2 with
      | some (props, r3) =>
        match decInfo r3 with
        | some (i, r4) => some (⟨p, props, i⟩, r4)
        | none => none
      | none => none
    | none => none
  | none => none

theorem decEntry_encEntry (e : MetaEntry) (r : List Nat) :
    decEntry (encEntry e ++ r) = some (e, r) := by
  simp [decEntry, encEntry, decPath_encPath, decNat_encNat,
    decList_flatMap decKV encKV decKV_encKV, decInfo_encInfo]

/-- Modelled from the spec: the metadata block of one segment — the encoded
sequence of (path, diff) entries assembled by the SegmentWriter (§4.4 step 2,
§6). -/
def encodeMeta (m : List MetaEntry) : List Nat :=
  encNat m.length ++ m.flatMap encEntry

/-- Decode a whole metadata block; the block must be consumed exactly. -/
def decodeMeta (bs : List Nat) : Option (List MetaEntry) :=
  match decNat bs with
  | some (k, r) =>
    match decList decEntry k r with
    | some (m, []) => some m
    | _ => none
  | none => none

theorem decodeMeta_encodeMeta (m : List MetaEntry) :
    decodeMeta (encodeMeta m) = some m := by
  have h := decList_flatMap decEntry encEntry decEntry_encEntry m []
  simp only [List.append_nil] at h
  have h2 := decNat_encNat m.length (m.flatMap encEntry)
  simp [decodeMeta, encodeMeta, h2, h]

/-! ### Segments: lead-in, encode, parse (spec §4.4, §6) -/

/-- Modelled from the spec: the raw-data layout mode carried in the lead-in
flags (§4.5, §6): contiguous-per-channel or fully interleaved. -/
inductive Layout where
  | contiguous
  | interleaved
deriving DecidableEq

/-- Modelled from the spec: one segment as an abstract value — layout mode,
metadata block entries and raw-data block bytes (§3 "Segment", §6). -/
structure Seg where
  mode : Layout
  meta : List MetaEntry
  raw : List Nat
deriving DecidableEq

/-- The fixed 4-byte magic tag opening every segment (spec §6). -/
def tagBytes : List Nat := [84, 68, 83, 109]

/-- The lead-in flag byte: bit 0 is the layout mode, bit 1 the has-raw-data
bit (spec §6). -/
def flagByte (s : Seg) : Nat :=
  (match s.mode with | .contiguous => 0 | .interleaved => 1) +
    (if s.raw.isEmpty then 0 else 2)

/-- Modelled from the spec: the byte encoding of one segment (§4.4 steps 4-5,
§6): tag, flags, metadata length, raw-data length, metadata block, raw
block. -/
def encodeSeg (s : Seg) : List Nat :=
  84 :: 68 :: 83 :: 109 :: flagByte s ::
    (encNat (encodeMeta s.meta).length ++
      (encNat s.raw.length ++ (encodeMeta s.meta ++ s.raw)))

theorem encodeSeg_length_ge (s : Seg) : 5 ≤ (encodeSeg s).length := by
  simp [encodeSeg]

/-- How a segment parse can fail: bytes ran out (truncation), the magic tag
did not match, or the metadata block was malformed (`FormatError`). -/
inductive SegErr where
  | truncated
  | badTag
  | badMeta
deriving DecidableEq

/-- Modelled from the spec: reading one segment's lead-in and metadata block
during indexing (§4.6).  Raw-data bytes are carried along undecoded.  Returns
the parsed segment and the remaining bytes, or how parsing failed. -/
def parseSegment (rest : List Nat) : Except SegErr (Seg × List Nat) :=
  if rest.length < 4 then .error .truncated
  else if rest.take 4 ≠ tagBytes then .error .badTag
  else
    match rest.drop 4 with
    | [] => .error .truncated
    | fb :: r1 =>
      match decNat r1 with
      | none => .error .truncated
      | some (mlen, r2) =>
        match decNat r2 with
        | none => .error .truncated
        | some (rlen, r3) =>
          if r3.length < mlen + rlen then .error .truncated
          else
            match decodeMeta (r3.take mlen) with
            | none => .error .badMeta
            | some meta =>
              .ok (⟨if fb % 2 = 1 then .interleaved else .contiguous, meta,
                      (r3.drop mlen).take rlen⟩,
                   (r3.drop mlen).drop rlen)

theorem parseSegment_encodeSeg (s : Seg) (t : List Nat) :
    parseSegment (encodeSeg s ++ t) = .ok (s, t) := by
  obtain ⟨mode, meta, raw⟩ := s
  have hflag : (flagByte ⟨mode, meta, raw⟩) % 2 =
      (match mode with | .contiguous => 0 | .interleaved => 1) := by
    cases mode <;> rcases raw with _ | ⟨b, raw⟩ <;> simp [flagByte]
  simp only [encodeSeg, List.cons_append, List.append_assoc, parseSegment,
    List.length_cons, List.take_succ_cons, List.take_zero, List.drop_succ_cons,
    List.drop_zero]
  rw [if_neg (by omega)]
  rw [if_neg (by simp [tagBytes])]
  simp only [decNat_encNat]
  rw [if_neg (by simp [List.length_append])]
  rw [List.take_left]
  simp only [decodeMeta_encodeMeta]
  rw [List.drop_left, List.take_left, List.drop_left]
  rw [hflag]
  cases mode <;> simp

/-- Parsing a nonempty strict prefix of an encoded segment reports
truncation. -/
theorem parseSegment_truncated (s : Seg) (p cut : List Nat)
    (h : p ++ cut = encodeSeg s) (hcut : cut ≠ []) :
    parseSegment p = .error .truncated := by
  rcases p with _ | ⟨a, _ | ⟨b, _ | ⟨c, _ | ⟨d, p4⟩⟩⟩⟩
  · simp [parseSegment]
  · simp [parseSegment]
  · simp [parseSegment]
  · simp [parseSegment]
  · -- p has at least four bytes: they must match the tag.
    simp only [encodeSeg, List.cons_append, List.cons.injEq] at h
    obtain ⟨ha, hb, hc, hd, h5⟩ := h
    subst ha; subst hb; subst hc; subst hd
    rcases p4 with _ | ⟨fb, p5⟩
    · simp [parseSegment, tagBytes]
    · simp only [List.cons_append, List.cons.injEq] at h5
      obtain ⟨hfb, h6⟩ := h5
      subst hfb
      -- h6 : p5 ++ cut = encNat mlen ++ (encNat rlen ++ (meta bytes ++ raw))
      rcases decNat_append_cases _ p5 cut _ h6 with ⟨q2, hq2, h7⟩ | hnone
      · rcases decNat_append_cases _ q2 cut _ h7 with ⟨q3, hq3, h8⟩ | hnone2
        · -- both length fields present; the blocks are cut short
          subst hq2; subst hq3
          have hlen : q3.length < (encodeMeta s.meta).length + s.raw.length := by
            have := congrArg List.length h8
            simp only [List.length_append] at this
            rcases cut with _ | ⟨x, xs⟩
            · exact absurd rfl hcut
            · simp only [List.length_cons] at this
              omega
          simp only [parseSegment, List.length_cons, List.take_succ_cons,
            List.take_zero, List.drop_succ_cons, List.drop_zero]
          rw [if_neg (by omega)]
          rw [if_neg (by simp [tagBytes])]
          simp only [decNat_encNat]
          rw [if_pos hlen]
        · -- cut inside the raw-length field
          have hd2 : decNat q2 = none := hnone2 hcut
          subst hq2
          simp only [parseSegment, List.length_cons, List.take_succ_cons,
            List.take_zero, List.drop_succ_cons, List.drop_zero]
          rw [if_neg (by omega)]
          rw [if_neg (by simp [tagBytes])]
          simp only [decNat_encNat, hd2]
      · -- cut inside the metadata-length field
        have hd1 : decNat p5 = none := hnone hcut
        simp only [parseSegment, List.length_cons, List.take_succ_cons,
          List.take_zero, List.drop_succ_cons, List.drop_zero]
        rw [if_neg (by omega)]
        rw [if_neg (by simp [tagBytes])]
        simp only [hd1]

theorem decNat_some_length : ∀ (bs r : List Nat) (m : Nat),
    decNat bs = some (m, r) → r.length < bs.length := by
  intro bs
  induction bs with
  | nil => intro r m h; simp [decNat] at h
  | cons b bs ih =>
    intro r m h
    simp only [decNat] at h
    by_cases hb : b < 128
    · simp only [hb, if_true, Option.some.injEq, Prod.mk.injEq] at h
      simp [← h.2, List.length_cons]
    · simp only [hb, if_false] at h
      match hd : decNat bs with
      | some (m2, r2) =>
        rw [hd] at h
        simp only [Option.some.injEq, Prod.mk.injEq] at h
        have := ih r2 m2 hd
        simp only [← h.2, List.length_cons]
        omega
      | none => rw [hd] at h; exact absurd h (by simp)

theorem parseSegment_ok_length : ∀ (rest : List Nat) (s : Seg) (rest' : List Nat),
    parseSegment rest = .ok (s, rest') → rest'.length < rest.length := by
  intro rest s rest' h
  unfold parseSegment at h
  split at h
  · exact absurd h (by simp)
  · split at h
    · exact absurd h (by simp)
    · rename_i h4 htag
      split at h
      · exact absurd h (by simp)
      · rename_i fb r1 hdrop
        split at h
        · exact absurd h (by simp)
        · rename_i p1 mlen r2 hdec1
          split at h
          · exact absurd h (by simp)
          · rename_i p2 rlen r3 hdec2
            split at h
            · exact absurd h (by simp)
            · split at h
              · exact absurd h (by simp)
              · rename_i hlt meta hmeta
                simp only [Except.ok.injEq, Prod.mk.injEq] at h
                have hr1 : rest.length - 4 = r1.length + 1 := by
                  have := congrArg List.length hdrop
                  simpa [List.length_drop] using this
                have h2 := decNat_some_length r1 r2 mlen hdec1
                have h3 := decNat_some_length r2 r3 rlen hdec2
                have h4' : rest'.length ≤ r3.length := by
                  rw [← h.2]
                  simp [List.length_drop]
                omega

/-! ### File scanning and the reader index (spec §4.6) -/

/-- Modelled from the spec: the end-to-end scan performed by `open` (§4.6):
read each segment's lead-in and metadata block, building the ordered list of
indexed segments; stop at the first failure, reporting its kind and byte
offset.  The fuel argument is an upper bound on the remaining byte count and
only serves termination. -/
def scanF : Nat → List Nat → Nat → List Seg × Option (SegErr × Nat)
  | _, [], _ => ([], none)
  | 0, _ :: _, pos => ([], some (.truncated, pos))
  | fuel + 1, b :: bs, pos =>
    match parseSegment (b :: bs) with
    | .ok (s, rest') =>
      let out := scanF fuel rest' (pos + ((b :: bs).length - rest'.length))
      (s :: out.1, out.2)
    | .error .truncated => ([], some (.truncated, pos + (b :: bs).length))
    | .error e => ([], some (e, pos))

theorem scanF_fuel : ∀ (n : Nat) (rest : List Nat) (f g pos : Nat),
    rest.length = n → rest.length ≤ f → rest.length ≤ g →
    scanF f rest pos = scanF g rest pos := by
  intro n
  induction n using Nat.strong_induction_on with
  | _ n ih =>
    intro rest f g pos hn hf hg
    match rest with
    | [] => simp [scanF]
    | b :: bs =>
      have hf1 : ∃ f2, f = f2 + 1 := by
        rcases f with _ | f2
        · simp at hf
        · exact ⟨f2, rfl⟩
      have hg1 : ∃ g2, g = g2 + 1 := by
        rcases g with _ | g2
        · simp at hg
        · exact ⟨g2, rfl⟩
      obtain ⟨f2, rfl⟩ := hf1
      obtain ⟨g2, rfl⟩ := hg1
      simp only [scanF]
      match hp : parseSegment (b :: bs) with
      | .ok (s, rest') =>
        have hlt := parseSegment_ok_length _ _ _ hp
        have heq := ih rest'.length (by omega) rest' f2 g2
          (pos + ((b :: bs).length - rest'.length)) rfl (by omega) (by omega)
        simp only [heq]
      | .error .truncated => rfl
      | .error .badTag => rfl
      | .error .badMeta => rfl

theorem scanF_nil (f pos : Nat) : scanF f [] pos = ([], none) := by
  cases f <;> simp [scanF]

theorem scanF_cons_seg (f : Nat) (s : Seg) (t : List Nat) (pos : Nat)
    (hf : (encodeSeg s ++ t).length ≤ f) :
    scanF f (encodeSeg s ++ t) pos =
      ((s :: (scanF t.length t (pos + (encodeSeg s).length)).1),
        (scanF t.length t (pos + (encodeSeg s).length)).2) := by
  have h5 := encodeSeg_length_ge s
  have hlen : (encodeSeg s ++ t).length = (encodeSeg s).length + t.length := by
    simp [List.length_append]
  have hne : ∃ b bs, encodeSeg s ++ t = b :: bs := by
    rcases he : encodeSeg s ++ t with _ | ⟨b, bs⟩
    · exfalso
      rw [(List.append_eq_nil.mp he).1] at h5
      simp at h5
    · exact ⟨b, bs, rfl⟩
  obtain ⟨b, bs, hbs⟩ := hne
  rcases f with _ | f2
  · exfalso; rw [hlen] at hf; omega
  rw [hbs]
  simp only [scanF]
  rw [← hbs]
  simp only [parseSegment_encodeSeg]
  have hconsumed : (encodeSeg s ++ t).length - t.length = (encodeSeg s).length := by
    rw [hlen]; omega
  have hfuel : t.length ≤ f2 := by rw [hlen] at hf; omega
  rw [hconsumed]
  rw [scanF_fuel t.length t f2 t.length (pos + (encodeSeg s).length) rfl hfuel
    (Nat.le_refl _)]

theorem scanF_flatten : ∀ (segs : List Seg) (t : List Nat) (pos f : Nat),
    ((segs.map encodeSeg).flatten ++ t).length ≤ f →
    scanF f ((segs.map encodeSeg).flatten ++ t) pos =
      ((segs ++ (scanF t.length t (pos + (segs.map encodeSeg).flatten.length)).1),
        (scanF t.length t (pos + (segs.map encodeSeg).flatten.length)).2) := by
  intro segs
  induction segs with
  | nil =>
    intro t pos f hf
    simp only [List.map_nil, List.flatten_nil, List.nil_append, List.length_nil,
      Nat.add_zero]
    rw [scanF_fuel t.length t f t.length pos rfl (by simpa using hf) (Nat.le_refl _)]
  | cons s segs ih =>
    intro t pos f hf
    simp only [List.map_cons, List.flatten_cons, List.append_assoc] at hf ⊢
    rw [scanF_cons_seg f s ((segs.map encodeSeg).flatten ++ t) pos hf]
    have hf2 : ((segs.map encodeSeg).flatten ++ t).length ≤
        ((segs.map encodeSeg).flatten ++ t).length := Nat.le_refl _
    rw [ih t (pos + (encodeSeg s).length) ((segs.map encodeSeg).flatten ++ t).length hf2]
    simp only [List.cons_append, List.length_append]
    rw [Nat.add_assoc]

/-- Scanning a nonempty strict prefix of one segment reports truncation at
the end of the available bytes. -/
theorem scanF_truncated_tail (f : Nat) (s : Seg) (p cut : List Nat) (pos : Nat)
    (hf : p.length ≤ f) (hp : p ≠ []) (hcut : cut ≠ [])
    (h : p ++ cut = encodeSeg s) :
    scanF f p pos = ([], some (.truncated, pos + p.length)) := by
  rcases p with _ | ⟨b, bs⟩
  · exact absurd rfl hp
  rcases f with _ | f'
  · simp [List.length_cons] at hf
  simp only [scanF]
  simp only [parseSegment_truncated s (b :: bs) cut h hcut]

/-! ### The reader's view of a segment: channel headers and chunk geometry -/

/-- One channel declaration inside a segment's metadata: group name, channel
name, value type, per-segment value count (spec §6 metadata block row). -/
structure ChanHdr where
  g : List Nat
  c : List Nat
  t : TdsType
  n : Nat
deriving DecidableEq

/-- The channel declarations of a segment, in metadata order. -/
def segChans (s : Seg) : List ChanHdr :=
  s.meta.filterMap fun e =>
    match e.path, e.info with
    | .channel g c, some (t, n) => some ⟨g, c, t, n⟩
    | _, _ => none

/-- A chunk descriptor recorded by the index for one channel in one segment:
element type, element count, byte offset of the first element inside the raw
block, and byte stride between consecutive elements (spec §4.6: "offset,
length, per-channel byte ranges"). -/
structure CDesc where
  t : TdsType
  n : Nat
  pre : Nat
  stride : Nat
deriving DecidableEq

/-- Extract `k` bytes at offset `o`. -/
def sub (l : List Nat) (o k : Nat) : List Nat := (l.drop o).take k

/-- Modelled from the spec: the LazyChannelAccessor's decoding of one chunk
(§4.7): each element is read from its byte range inside the segment's raw
block and reassembled in the channel's declared type. -/
def decodeChunk (raw : List Nat) (d : CDesc) : List Nat :=
  (List.range d.n).map fun j => leVal (sub raw (d.pre + j * d.stride) (tsize d.t))

/-- Byte width a channel header occupies in one interleaved row (a channel
contributing no values occupies none). -/
def wsize (h : ChanHdr) : Nat := if h.n = 0 then 0 else tsize h.t

/-- Chunk descriptors for a contiguous segment: each channel's block follows
the previous one (spec §4.5 contiguous mode). -/
def descsC : Nat → List ChanHdr → List (ChanHdr × CDesc)
  | _, [] => []
  | off, h :: hs => (h, ⟨h.t, h.n, off, tsize h.t⟩) :: descsC (off + h.n * tsize h.t) hs

/-- Chunk descriptors for an interleaved segment: all channels share the row
stride and are offset by the widths of the preceding channels (spec §4.5
interleaved mode). -/
def descsI (stride : Nat) : Nat → List ChanHdr → List (ChanHdr × CDesc)
  | _, [] => []
  | pre, h :: hs => (h, ⟨h.t, h.n, pre, stride⟩) :: descsI stride (pre + wsize h) hs

/-- The chunk descriptors of one segment, per its layout mode. -/
def segDescs (s : Seg) : List (ChanHdr × CDesc) :=
  match s.mode with
  | .contiguous => descsC 0 (segChans s)
  | .interleaved => descsI ((segChans s).map wsize).sum 0 (segChans s)

/-- The values a segment contributes to channel `(g, c)`, decoded from its
raw block. -/
def segValues (s : Seg) (g c : List Nat) : List Nat :=
  ((segDescs s).filter fun p => decide (p.1.g = g ∧ p.1.c = c)).flatMap
    fun p => decodeChunk s.raw p.2

/-- Modelled from the spec: the LazyChannelAccessor's full value sequence of
a channel — the concatenation, segment by segment, of the chunks recorded for
it (§4.7, §3 invariant on logical channel value sequence). -/
def channelValues (segs : List Seg) (g c : List Nat) : List Nat :=
  segs.flatMap fun s => segValues s g c

/-- Modelled from the spec: `length(channel)` — the sum of all recorded chunk
lengths (§4.7). -/
def channelLength (segs : List Seg) (g c : List Nat) : Nat :=
  (segs.flatMap fun s =>
    (segChans s).filterMap fun h => if h.g = g ∧ h.c = c then some h.n else none).sum

/-- Modelled from the spec: `slice(channel, start, stop)` — the requested
sub-range of the channel's concatenated-across-segments values (§4.7). -/
def sliceChannel (segs : List Seg) (g c : List Nat) (a b : Nat) : List Nat :=
  ((channelValues segs g c).drop a).take (b - a)

/-- The channel's declared value type as seen by the reader: its first
declaration in segment order. -/
def chanDtype (segs : List Seg) (g c : List Nat) : Option TdsType :=
  (segs.flatMap fun s =>
    (segChans s).filterMap fun h => if h.g = g ∧ h.c = c then some h.t else none).head?

/-! ### Group / channel enumeration (spec §4.6) -/

/-- Append a name if it is not already present (keeps first-mention order). -/
def insertName (l : List (List Nat)) (x : List Nat) : List (List Nat) :=
  if x ∈ l then l else l ++ [x]

/-- Group names mentioned by a segment's metadata, in order. -/
def segGroupNames (s : Seg) : List (List Nat) :=
  s.meta.filterMap fun e =>
    match e.path with
    | .group g => some g
    | .channel g _ => some g
    | .root => none

/-- Modelled from the spec: `groups(handle)` — group names in first-mention
(insertion) order (§4.6). -/
def fileGroups (segs : List Seg) : List (List Nat) :=
  (segs.flatMap segGroupNames).foldl insertName []

/-- Channel names of group `g` mentioned by a segment's metadata, in order. -/
def segChanNames (s : Seg) (g : List Nat) : List (List Nat) :=
  s.meta.filterMap fun e =>
    match e.path with
    | .channel g2 c => if g2 = g then some c else none
    | _ => none

/-- Modelled from the spec: `channels(handle, group)` enumeration — channel
names of a group in first-mention order (§4.6). -/
def fileChannels (segs : List Seg) (g : List Nat) : List (List Nat) :=
  (segs.flatMap fun s => segChanNames s g).foldl insertName []

/-! ### Errors (spec §7) -/

/-- Modelled from the spec: the error taxonomy (§7). -/
inductive TdmsError where
  | formatError
  | typeConflict
  | layoutError
  | corruptFile (offset : Nat)
  | notFound
deriving DecidableEq

/-- Modelled from the spec: `channels(handle, group)` as a query naming a
specific path — a nonexistent group fails with `NotFoundError` (§7). -/
def channelsQ (segs : List Seg) (g : List Nat) : Except TdmsError (List (List Nat)) :=
  if g ∈ fileGroups segs then .ok (fileChannels segs g) else .error .notFound

/-! ### Cross-segment value-type consistency on read (spec §3 invariant, §7) -/

/-- Look up a (group, channel) key in a first-seen type table. -/
def lookupT : List ((List Nat × List Nat) × TdsType) → List Nat × List Nat → Option TdsType
  | [], _ => none
  | (k, t) :: rest, q => if k = q then some t else lookupT rest q

/-- Fold one segment's channel declarations into the first-seen type table;
fails on a declaration conflicting with the recorded type. -/
def addTypes : List ((List Nat × List Nat) × TdsType) → List ChanHdr →
    Option (List ((List Nat × List Nat) × TdsType))
  | tm, [] => some tm
  | tm, h :: hs =>
    match lookupT tm (h.g, h.c) with
    | none => addTypes (((h.g, h.c), h.t) :: tm) hs
    | some t0 => if t0 = h.t then addTypes tm hs else none

/-- Modelled from the spec: the reader-side check that a channel's value type
never changes across segments (§3 invariant; §7 `TypeConflictError` "aborts
the write/read operation"). -/
def readTypes : List ((List Nat × List Nat) × TdsType) → List Seg →
    Option (List ((List Nat × List Nat) × TdsType))
  | tm, [] => some tm
  | tm, s :: ss =>
    match addTypes tm (segChans s) with
    | some tm2 => readTypes tm2 ss
    | none => none

/-- Modelled from the spec: `open(path)` (§4.6): scan the file end-to-end,
returning the indexed segments together with the error encountered, if any.
Indexing failures surface as `CorruptFileError` with the failing byte offset
(truncation reports the offset where bytes are missing), malformed metadata
as `FormatError`, and a cross-segment value-type change as
`TypeConflictError`; in every case the segments indexed before the failure
remain available through the returned index. -/
def openFile (file : List Nat) : List Seg × Option TdmsError :=
  let sc := scanF file.length file 0
  match sc.2 with
  | none =>
    (sc.1, if (readTypes [] sc.1).isSome then none else some .typeConflict)
  | some (se, off) =>
    (sc.1, some (match se with
      | .badMeta => .formatError
      | _ => .corruptFile off))

/-! ### The writer: metadata registry, segment assembly (spec §4.3, §4.4) -/

/-- One channel's data contribution to a segment: names, declared element
type, and the contributed raw values (bit patterns). -/
structure CData where
  g : List Nat
  c : List Nat
  t : TdsType
  d : List Nat
deriving DecidableEq

/-- The channel header a contribution declares in the metadata block. -/
def CData.hdr (x : CData) : ChanHdr := ⟨x.g, x.c, x.t, x.d.length⟩

/-- Modelled from the spec: one MetadataRegistry entry — last-known property
mapping, declared channel value type, and total-values-written counter
(§4.3 State). -/
structure RegEntry where
  props : List (List Nat × PropValue)
  chanType : Option TdsType
  count : Nat
deriving DecidableEq

/-- Association-list lookup in the registry. -/
def lookupReg : List (ObjPath × RegEntry) → ObjPath → Option RegEntry
  | [], _ => none
  | (p, e) :: rest, q => if p = q then some e else lookupReg rest q

/-- Replace (or append) the entry for a path. -/
def updateReg : List (ObjPath × RegEntry) → ObjPath → RegEntry → List (ObjPath × RegEntry)
  | [], q, e => [(q, e)]
  | (p, e0) :: rest, q, e =>
    if p = q then (q, e) :: rest else (p, e0) :: updateReg rest q e

/-- First match for a property key. -/
def lookupProp : List (List Nat × PropValue) → List Nat → Option PropValue
  | [], _ => none
  | (k, v) :: rest, q => if k = q then some v else lookupProp rest q

/-- Modelled from the spec: key-wise overwrite merge of property sets (§4.3
`registerOrUpdate`, "merges properties (key-wise overwrite)"). -/
def mergeProps (old new : List (List Nat × PropValue)) : List (List Nat × PropValue) :=
  (old.filter fun kv => (lookupProp new kv.1).isNone) ++ new

/-- The properties of `new` whose value differs from what `old` records. -/
def diffProps (old new : List (List Nat × PropValue)) : List (List Nat × PropValue) :=
  new.filter fun kv => decide (lookupProp old kv.1 ≠ some kv.2)

/-- Modelled from the spec: `diffForSegment(path, newProperties)` (§4.3):
only the properties whose value changed since last write; on first
appearance, the full property set. -/
def diffForSegment (reg : List (ObjPath × RegEntry)) (path : ObjPath)
    (newProps : List (List Nat × PropValue)) : List (List Nat × PropValue) :=
  match lookupReg reg path with
  | none => newProps
  | some e => diffProps e.props newProps

/-- Modelled from the spec: the polymorphic objects accepted by
`write_segment` (root, group, channel descriptors; §4.4, design note on the
tagged variant). -/
inductive TdmsObject where
  | rootObj (props : List (List Nat × PropValue))
  | groupObj (g : List Nat) (props : List (List Nat × PropValue))
  | chanObj (g c : List Nat) (t : TdsType) (props : List (List Nat × PropValue))
      (data : List Nat)
deriving DecidableEq

/-- The object path an update addresses. -/
def pathOf : TdmsObject → ObjPath
  | .rootObj _ => .root
  | .groupObj g _ => .group g
  | .chanObj g c _ _ _ => .channel g c

/-- The properties an update carries. -/
def propsOf : TdmsObject → List (List Nat × PropValue)
  | .rootObj props => props
  | .groupObj _ props => props
  | .chanObj _ _ _ props _ => props

/-- Modelled from the spec: `registerOrUpdate` combined with metadata-diff
emission for one object update (§4.3, §4.4 steps 1-2): create the entry on
first appearance (emitting the full property set, and for channels the value
type and count); on a repeat, verify the channel value type
(`TypeConflictError` on mismatch), merge properties, and emit only the
changed properties plus any new data declaration.  Returns the updated
registry, the metadata entries emitted, and the channel data contributions
declared with a value count. -/
def applyUpdate (reg : List (ObjPath × RegEntry)) (u : TdmsObject) :
    Except TdmsError (List (ObjPath × RegEntry) × List MetaEntry × List CData) :=
  match u with
  | .rootObj props =>
    match lookupReg reg .root with
    | none =>
      .ok (updateReg reg .root ⟨props, none, 0⟩, [⟨.root, props, none⟩], [])
    | some e =>
      .ok (updateReg reg .root ⟨mergeProps e.props props, e.chanType, e.count⟩,
        if diffProps e.props props = [] then []
        else [⟨.root, diffProps e.props props, none⟩], [])
  | .groupObj g props =>
    match lookupReg reg (.group g) with
    | none =>
      .ok (updateReg reg (.group g) ⟨props, none, 0⟩, [⟨.group g, props, none⟩], [])
    | some e =>
      .ok (updateReg reg (.group g) ⟨mergeProps e.props props, e.chanType, e.count⟩,
        if diffProps e.props props = [] then []
        else [⟨.group g, diffProps e.props props, none⟩], [])
  | .chanObj g c t props data =>
    match lookupReg reg (.channel g c) with
    | none =>
      .ok (updateReg reg (.channel g c) ⟨props, some t, data.length⟩,
        [⟨.channel g c, props, some (t, data.length)⟩], [⟨g, c, t, data⟩])
    | some e =>
      match e.chanType with
      | some t0 =>
        if t0 = t then
          .ok (updateReg reg (.channel g c)
              ⟨mergeProps e.props props, some t, e.count + data.length⟩,
            if diffProps e.props props = [] ∧ data = [] then []
            else [⟨.channel g c, diffProps e.props props,
                    if data = [] then none else some (t, data.length)⟩],
            if data = [] then [] else [⟨g, c, t, data⟩])
        else .error .typeConflict
      | none =>
        .ok (updateReg reg (.channel g c)
            ⟨mergeProps e.props props, some t, e.count + data.length⟩,
          [⟨.channel g c, diffProps e.props props, some (t, data.length)⟩],
          [⟨g, c, t, data⟩])

/-- Fold `applyUpdate` over a segment's ordered updates (spec §4.4 step 1). -/
def procUpdates (reg : List (ObjPath × RegEntry)) :
    List TdmsObject → Except TdmsError (List (ObjPath × RegEntry) × List MetaEntry × List CData)
  | [] => .ok (reg, [], [])
  | u :: us =>
    match applyUpdate reg u with
    | .ok (reg1, m1, cd1) =>
      match procUpdates reg1 us with
      | .ok (reg2, m2, cd2) => .ok (reg2, m1 ++ m2, cd1 ++ cd2)
      | .error e => .error e
    | .error e => .error e

/-! ### Chunked raw-data encoding (spec §4.5) -/

/-- Fixed-width little-endian encoding of one element of type `t`. -/
def encElem (t : TdsType) (v : Nat) : List Nat := natLE (tsize t) v

/-- The per-segment value count shared by data-bearing channels (the row
count of an interleaved segment). -/
def maxLen (cds : List CData) : Nat := (cds.map fun x => x.d.length).foldr max 0

/-- One interleaved row: one element per data-bearing channel (spec §4.5,
"values are written round-robin, one element per channel per row"). -/
def rowFor (cds : List CData) (j : Nat) : List Nat :=
  cds.flatMap fun x => if x.d = [] then [] else encElem x.t (x.d.getD j 0)

/-- Modelled from the spec: the ChunkedDataEncoder (§4.5): contiguous mode
writes each channel's values back-to-back; interleaved mode writes
round-robin rows. -/
def encodeRaw : Layout → List CData → List Nat
  | .contiguous, cds => cds.flatMap fun x => x.d.flatMap (encElem x.t)
  | .interleaved, cds => (List.range (maxLen cds)).flatMap fun j => rowFor cds j

/-! ### The segment writer (spec §4.4) -/

/-- Modelled from the spec: the writer's state — the open file's bytes and
the MetadataRegistry, owned together by the writer handle (§5, §9). -/
structure WriterState where
  registry : List (ObjPath × RegEntry)
  file : List Nat
deriving DecidableEq

/-- A fresh writer on an empty file. -/
def initState : WriterState := ⟨[], []⟩

/-- The data-bearing channel contributions of a segment's updates. -/
def updCDatas (objs : List TdmsObject) : List CData :=
  objs.filterMap fun u =>
    match u with
    | .chanObj g c t _ data => if data = [] then none else some ⟨g, c, t, data⟩
    | _ => none

/-- All data-bearing channels of one interleaved segment must contribute the
same number of values (spec §4.5). -/
def sameLens : List CData → Bool
  | [] => true
  | x :: xs => xs.all fun y => y.d.length = x.d.length

/-- The layout precondition checked before any byte of the segment is
produced (spec §4.5, §7 `LayoutError`). -/
def layoutOK (mode : Layout) (objs : List TdmsObject) : Bool :=
  match mode with
  | .contiguous => true
  | .interleaved => sameLens (updCDatas objs)

/-- Modelled from the spec: `writeSegment(objectUpdates)` (§4.4): reject an
interleaved length mismatch (`LayoutError`) before producing any bytes;
compute metadata diffs and registry updates (`TypeConflictError` aborts
without touching the file); then assemble lead-in + metadata block + raw
block and append them to the file in one pass.  The file grows only by the
returned state; on error no bytes are appended. -/
def writeSegment (mode : Layout) (objs : List TdmsObject) (st : WriterState) :
    Except TdmsError WriterState :=
  if layoutOK mode objs then
    match procUpdates st.registry objs with
    | .ok (reg2, meta, cds) =>
      .ok ⟨reg2, st.file ++ encodeSeg ⟨mode, meta, encodeRaw mode cds⟩⟩
    | .error e => .error e
  else .error .layoutError

/-- A whole writing session: the ordered `writeSegment` calls of one writer
handle (spec §4.4, §5). -/
def writeMany : List (Layout × List TdmsObject) → WriterState → Except TdmsError WriterState
  | [], st => .ok st
  | (mode, objs) :: rest, st =>
    match writeSegment mode objs st with
    | .ok st2 => writeMany rest st2
    | .error e => .error e

/-- The byte size of a metadata-free, raw-data-free segment. -/
def minSegSize : Nat := 8

theorem encodeSeg_empty_length (mode : Layout) :
    (encodeSeg ⟨mode, [], []⟩).length = minSegSize := by
  cases mode <;> rfl

/-- The values all calls of a session contribute to channel `(g, c)`, in
call order. -/
def callData (g c : List Nat) (u : TdmsObject) : List Nat :=
  match u with
  | .chanObj g2 c2 _ _ d => if g2 = g ∧ c2 = c then d else []
  | _ => []

/-- The concatenation, in write order, of all values contributed to channel
`(g, c)` by a session's calls. -/
def contributions (calls : List (Layout × List TdmsObject)) (g c : List Nat) : List Nat :=
  calls.flatMap fun cl => cl.2.flatMap (callData g c)

/-- Every raw value of a channel update fits the byte width of its declared
type (what a typed source array guarantees). -/
def objValidB : TdmsObject → Bool
  | .chanObj _ _ t _ d => d.all fun v => v < 256 ^ tsize t
  | _ => true

/-- All updates of all calls carry width-respecting values. -/
def callsValidB (calls : List (Layout × List TdmsObject)) : Bool :=
  calls.all fun cl => cl.2.all objValidB

/-! ### Decoding a contiguous raw block recovers the written values -/

theorem encElem_length (t : TdsType) (v : Nat) : (encElem t v).length = tsize t :=
  natLE_length _ _

theorem leVal_encElem (t : TdsType) (v : Nat) (hv : v < 256 ^ tsize t) :
    leVal (encElem t v) = v := leVal_natLE _ _ hv

theorem sub_shift (A R : List Nat) (o k : Nat) :
    sub (A ++ R) (A.length + o) k = sub R o k := by
  simp [sub, List.drop_append]

theorem getD_map_range (d : List Nat) :
    (List.range d.length).map (fun j => d.getD j 0) = d := by
  apply List.ext_getElem
  · simp
  · intro i h1 h2
    simp only [List.getElem_map, List.getElem_range]
    rw [List.getD_eq_getElem d 0]

theorem flatMap_encElem_length (t : TdsType) (d : List Nat) :
    (d.flatMap (encElem t)).length = d.length * tsize t := by
  induction d with
  | nil => simp
  | cons x d ih =>
    simp only [List.flatMap_cons, List.length_append, encElem_length, ih,
      List.length_cons]
    try ring

theorem sub_flatMap_encElem (t : TdsType) :
    ∀ (d : List Nat) (j : Nat) (B : List Nat), j < d.length →
      sub (d.flatMap (encElem t) ++ B) (j * tsize t) (tsize t) =
        encElem t (d.getD j 0) := by
  intro d
  induction d with
  | nil => intro j B hj; simp at hj
  | cons x d ih =>
    intro j B hj
    cases j with
    | zero =>
      simp only [Nat.zero_mul, sub, List.drop_zero, List.flatMap_cons,
        List.append_assoc, List.getD_cons_zero]
      exact List.take_left' (encElem_length t x)
    | succ j =>
      have hs : (j + 1) * tsize t = tsize t + j * tsize t := by ring
      have hshift := sub_shift (encElem t x) (d.flatMap (encElem t) ++ B)
        (j * tsize t) (tsize t)
      rw [encElem_length] at hshift
      simp only [List.flatMap_cons, List.append_assoc, hs]
      rw [hshift]
      have hj2 : j < d.length := by simp [List.length_cons] at hj; omega
      exact ih j B hj2

theorem decodeChunk_block (t : TdsType) (d A B : List Nat)
    (hv : ∀ v ∈ d, v < 256 ^ tsize t) :
    decodeChunk (A ++ (d.flatMap (encElem t) ++ B)) ⟨t, d.length, A.length, tsize t⟩ = d := by
  unfold decodeChunk
  have hstep : ∀ j ∈ List.range d.length,
      leVal (sub (A ++ (d.flatMap (encElem t) ++ B)) (A.length + j * tsize t) (tsize t))
        = d.getD j 0 := by
    intro j hj
    have hjl : j < d.length := List.mem_range.mp hj
    rw [sub_shift, sub_flatMap_encElem t d j B hjl, leVal_encElem]
    apply hv
    rw [List.getD_eq_getElem d 0 hjl]
    exact List.getElem_mem hjl
  rw [List.map_congr_left hstep, getD_map_range]

theorem descsC_decode : ∀ (cds : List CData) (A B : List Nat),
    (∀ x ∈ cds, ∀ v ∈ x.d, v < 256 ^ tsize x.t) →
    (descsC A.length (cds.map CData.hdr)).map
        (fun p => decodeChunk
          (A ++ ((cds.flatMap fun x => x.d.flatMap (encElem x.t)) ++ B)) p.2)
      = cds.map (fun x => x.d) := by
  intro cds
  induction cds with
  | nil => intro A B _; simp [descsC]
  | cons x cds ih =>
    intro A B hv
    simp only [List.map_cons, descsC, List.flatMap_cons, List.append_assoc, CData.hdr]
    congr 1
    · exact decodeChunk_block x.t x.d A ((cds.flatMap fun y => y.d.flatMap (encElem y.t)) ++ B)
        (hv x (List.mem_cons_self x cds))
    · have hA : (A ++ x.d.flatMap (encElem x.t)).length =
          A.length + x.d.length * tsize x.t := by
        simp only [List.length_append, flatMap_encElem_length]
      have hv2 : ∀ y ∈ cds, ∀ v ∈ y.d, v < 256 ^ tsize y.t := by
        intro y hy v hvv
        exact hv y (List.mem_cons_of_mem x hy) v hvv
      have := ih (A ++ x.d.flatMap (encElem x.t)) B hv2
      rw [hA] at this
      rw [← this]
      congr 1
      funext p
      congr 1
      rw [List.append_assoc]

/-! ### Decoding an interleaved raw block recovers the written values -/

/-- Total byte width of one interleaved row over the given contributions. -/
def rowWidth (cds : List CData) : Nat := ((cds.map CData.hdr).map wsize).sum

theorem rowFor_length (cds : List CData) (j : Nat) :
    (rowFor cds j).length = rowWidth cds := by
  induction cds with
  | nil => rfl
  | cons x cds ih =>
    simp only [rowFor, List.flatMap_cons, List.length_append, rowWidth,
      List.map_cons, List.sum_cons] at ih ⊢
    rw [ih]
    congr 1
    by_cases hx : x.d = []
    · simp [hx, wsize, CData.hdr]
    · have hlen : x.d.length ≠ 0 := fun h0 => hx (List.length_eq_zero.mp h0)
      simp [hx, wsize, CData.hdr, encElem_length, hlen]

theorem rowWidth_append (a b : List CData) :
    rowWidth (a ++ b) = rowWidth a + rowWidth b := by
  simp [rowWidth, List.map_append, List.sum_append]

theorem flatten_rows_decomp : ∀ (rows : List (List Nat)) (S j : Nat),
    (∀ r ∈ rows, r.length = S) → j < rows.length →
    ∃ tail, rows.flatten.drop (j * S) = rows.getD j [] ++ tail := by
  intro rows
  induction rows with
  | nil => intro S j _ hj; simp at hj
  | cons r rows ih =>
    intro S j hlen hj
    cases j with
    | zero =>
      refine ⟨rows.flatten, ?_⟩
      simp [List.flatten_cons]
    | succ j =>
      have hr : r.length = S := hlen r (List.mem_cons_self r rows)
      have hs : (j + 1) * S = S + j * S := by ring
      rw [List.flatten_cons, hs, ← List.drop_drop, List.drop_left' hr]
      exact ih S j (fun r2 hr2 => hlen r2 (List.mem_cons_of_mem r hr2))
        (by simp [List.length_cons] at hj; omega)

theorem range_map_getD (n : Nat) (row : Nat → List Nat) (j : Nat) (hj : j < n) :
    ((List.range n).map row).getD j [] = row j := by
  have h1 : j < ((List.range n).map row).length := by simp [hj]
  rw [List.getD_eq_getElem _ [] h1]
  simp

theorem sub_interleaved (full : List CData) (n : Nat) (done togo : List CData)
    (x : CData) (rest : List CData)
    (hfull : full = done ++ togo) (htogo : togo = x :: rest) (hx : x.d ≠ [])
    (j : Nat) (hj : j < n) :
    sub ((List.range n).flatMap (rowFor full)) (rowWidth done + j * rowWidth full)
        (tsize x.t) = encElem x.t (x.d.getD j 0) := by
  have hraw : (List.range n).flatMap (rowFor full) =
      ((List.range n).map (rowFor full)).flatten := by
    simp [List.flatMap_def]
  have hrows : ∀ r ∈ (List.range n).map (rowFor full), r.length = rowWidth full := by
    intro r hr
    obtain ⟨j2, _, rfl⟩ := List.mem_map.mp hr
    exact rowFor_length full j2
  have hjl : j < ((List.range n).map (rowFor full)).length := by simp [hj]
  obtain ⟨tail, htail⟩ := flatten_rows_decomp ((List.range n).map (rowFor full))
    (rowWidth full) j hrows hjl
  rw [range_map_getD n (rowFor full) j hj] at htail
  have hrowj : rowFor full j =
      rowFor done j ++ (encElem x.t (x.d.getD j 0) ++ rowFor rest j) := by
    rw [hfull, htogo]
    simp [rowFor, List.flatMap_append, List.flatMap_cons, hx]
  unfold sub
  rw [Nat.add_comm (rowWidth done) (j * rowWidth full), ← List.drop_drop, hraw, htail,
    hrowj, List.append_assoc, List.drop_left' (rowFor_length done j),
    List.append_assoc]
  exact List.take_left' (encElem_length x.t (x.d.getD j 0))

theorem descsI_decode : ∀ (togo done : List CData) (n : Nat),
    (∀ x ∈ done ++ togo, x.d = [] ∨ x.d.length = n) →
    (∀ x ∈ done ++ togo, ∀ v ∈ x.d, v < 256 ^ tsize x.t) →
    (descsI (rowWidth (done ++ togo)) (rowWidth done) (togo.map CData.hdr)).map
        (fun p => decodeChunk ((List.range n).flatMap (rowFor (done ++ togo))) p.2)
      = togo.map (fun x => x.d) := by
  intro togo
  induction togo with
  | nil => intro done n _ _; simp [descsI]
  | cons x rest ih =>
    intro done n hn hv
    simp only [List.map_cons, descsI, CData.hdr]
    congr 1
    · -- the head channel decodes to its own data
      by_cases hx : x.d = []
      · simp [decodeChunk, hx]
      · have hxn : x.d.length = n := by
          rcases hn x (by simp) with h | h
          · exact absurd h hx
          · exact h
        unfold decodeChunk
        have hstep : ∀ j ∈ List.range x.d.length,
            leVal (sub ((List.range n).flatMap (rowFor (done ++ x :: rest)))
              (rowWidth done + j * rowWidth (done ++ x :: rest)) (tsize x.t))
              = x.d.getD j 0 := by
          intro j hjr
          have hjl : j < x.d.length := List.mem_range.mp hjr
          rw [sub_interleaved (done ++ x :: rest) n done (x :: rest) x rest rfl rfl hx
            j (by omega), leVal_encElem]
          apply hv x (by simp)
          rw [List.getD_eq_getElem x.d 0 hjl]
          exact List.getElem_mem hjl
        rw [List.map_congr_left hstep, getD_map_range]
    · have hre : done ++ x :: rest = (done ++ [x]) ++ rest := by simp
      have hpre : rowWidth (done ++ [x]) = rowWidth done + wsize x.hdr := by
        rw [rowWidth_append]
        simp [rowWidth]
      have := ih (done ++ [x]) n (by rw [← hre]; exact hn) (by rw [← hre]; exact hv)
      rw [hpre] at this
      rw [hre]
      exact this

theorem descsC_fst : ∀ (hs : List ChanHdr) (off : Nat),
    (descsC off hs).map Prod.fst = hs := by
  intro hs
  induction hs with
  | nil => intro off; simp [descsC]
  | cons h hs ih => intro off; simp [descsC, ih]

theorem descsI_fst : ∀ (hs : List ChanHdr) (S pre : Nat),
    (descsI S pre hs).map Prod.fst = hs := by
  intro hs
  induction hs with
  | nil => intro S pre; simp [descsI]
  | cons h hs ih => intro S pre; simp [descsI, ih]

/-! ### A well-formed segment decodes to its contributions -/

theorem segDescs_decode (s : Seg) (cds : List CData)
    (hch : segChans s = cds.map CData.hdr)
    (hraw : s.raw = encodeRaw s.mode cds)
    (hint : s.mode = .interleaved → ∀ x ∈ cds, x.d = [] ∨ x.d.length = maxLen cds)
    (hv : ∀ x ∈ cds, ∀ v ∈ x.d, v < 256 ^ tsize x.t) :
    (segDescs s).map (fun p => decodeChunk s.raw p.2) = cds.map (fun x => x.d) := by
  obtain ⟨mode, meta, raw⟩ := s
  cases mode with
  | contiguous =>
    simp only [encodeRaw] at hraw
    subst hraw
    simp only [segDescs, segChans] at hch ⊢
    rw [hch]
    simpa using descsC_decode cds [] [] hv
  | interleaved =>
    simp only [encodeRaw] at hraw
    subst hraw
    simp only [segDescs, segChans] at hch ⊢
    rw [hch]
    have := descsI_decode cds [] (maxLen cds) (by simpa using hint rfl) (by simpa using hv)
    simpa [rowWidth] using this

theorem segDescs_fst (s : Seg) : (segDescs s).map Prod.fst = segChans s := by
  obtain ⟨mode, meta, raw⟩ := s
  cases mode <;> simp [segDescs, descsC_fst, descsI_fst]

theorem filterAligned : ∀ (ds : List (ChanHdr × CDesc)) (cds : List CData)
    (raw : List Nat) (g c : List Nat),
    ds.map Prod.fst = cds.map CData.hdr →
    ds.map (fun p => decodeChunk raw p.2) = cds.map (fun x => x.d) →
    (ds.filter fun p => decide (p.1.g = g ∧ p.1.c = c)).flatMap
        (fun p => decodeChunk raw p.2)
      = (cds.filter fun x => decide (x.g = g ∧ x.c = c)).flatMap (fun x => x.d) := by
  intro ds
  induction ds with
  | nil =>
    intro cds raw g c hfst _
    have hnil : cds = [] := by
      cases cds with
      | nil => rfl
      | cons y ys => simp at hfst
    subst hnil
    simp
  | cons p ds ih =>
    intro cds raw g c hfst hdec
    cases cds with
    | nil => simp at hfst
    | cons x xs =>
      simp only [List.map_cons, List.cons.injEq] at hfst hdec
      obtain ⟨hp1, hfst2⟩ := hfst
      obtain ⟨hd1, hdec2⟩ := hdec
      have hg : p.1.g = x.g := by rw [hp1]; simp [CData.hdr]
      have hc2 : p.1.c = x.c := by rw [hp1]; simp [CData.hdr]
      by_cases hcond : x.g = g ∧ x.c = c
      · have b1 : decide (p.1.g = g ∧ p.1.c = c) = true := by
          rw [hg, hc2]; exact decide_eq_true hcond
        have b2 : decide (x.g = g ∧ x.c = c) = true := decide_eq_true hcond
        simp only [List.filter_cons, b1, b2, if_true, List.flatMap_cons]
        rw [hd1, ih xs raw g c hfst2 hdec2]
      · have b1 : decide (p.1.g = g ∧ p.1.c = c) = false := by
          rw [hg, hc2]; exact decide_eq_false hcond
        have b2 : decide (x.g = g ∧ x.c = c) = false := decide_eq_false hcond
        simp only [List.filter_cons, b1, b2, Bool.false_eq_true, if_false]
        exact ih xs raw g c hfst2 hdec2

theorem segValues_eq (s : Seg) (cds : List CData) (g c : List Nat)
    (hch : segChans s = cds.map CData.hdr)
    (hraw : s.raw = encodeRaw s.mode cds)
    (hint : s.mode = .interleaved → ∀ x ∈ cds, x.d = [] ∨ x.d.length = maxLen cds)
    (hv : ∀ x ∈ cds, ∀ v ∈ x.d, v < 256 ^ tsize x.t) :
    segValues s g c = (cds.filter fun x => decide (x.g = g ∧ x.c = c)).flatMap
      (fun x => x.d) := by
  unfold segValues
  exact filterAligned (segDescs s) cds s.raw g c
    (by rw [segDescs_fst s, hch]) (segDescs_decode s cds hch hraw hint hv)

theorem segChans_count (cds : List CData) (g c : List Nat) :
    ((cds.map CData.hdr).filterMap fun h =>
        if h.g = g ∧ h.c = c then some h.n else none).sum
      = ((cds.filter fun x => decide (x.g = g ∧ x.c = c)).flatMap
          (fun x => x.d)).length := by
  induction cds with
  | nil => rfl
  | cons x xs ih =>
    have h1 : ((fun h => if h.g = g ∧ h.c = c then some h.n else none) (CData.hdr x))
        = if x.g = g ∧ x.c = c then some x.d.length else none := by
      simp [CData.hdr]
    by_cases hcond : x.g = g ∧ x.c = c
    · have h2 : decide (x.g = g ∧ x.c = c) = true := decide_eq_true hcond
      simp only [List.map_cons, List.filterMap_cons, List.filter_cons, h1, h2,
        if_pos hcond, if_true, List.sum_cons, List.flatMap_cons, List.length_append, ih]
    · have h2 : decide (x.g = g ∧ x.c = c) = false := decide_eq_false hcond
      simp only [List.map_cons, List.filterMap_cons, List.filter_cons, h1, h2,
        if_neg hcond, Bool.false_eq_true, if_false, ih]

theorem segChans_dtype (cds : List CData) (g c : List Nat) :
    ((cds.map CData.hdr).filterMap fun h =>
        if h.g = g ∧ h.c = c then some h.t else none)
      = (cds.filter fun x => decide (x.g = g ∧ x.c = c)).map (fun x => x.t) := by
  induction cds with
  | nil => rfl
  | cons x xs ih =>
    have h1 : ((fun h => if h.g = g ∧ h.c = c then some h.t else none) (CData.hdr x))
        = if x.g = g ∧ x.c = c then some x.t else none := by
      simp [CData.hdr]
    by_cases hcond : x.g = g ∧ x.c = c
    · have h2 : decide (x.g = g ∧ x.c = c) = true := decide_eq_true hcond
      simp only [List.map_cons, List.filterMap_cons, List.filter_cons, h1, h2,
        if_pos hcond, if_true, List.map_cons, ih]
    · have h2 : decide (x.g = g ∧ x.c = c) = false := decide_eq_false hcond
      simp only [List.map_cons, List.filterMap_cons, List.filter_cons, h1, h2,
        if_neg hcond, Bool.false_eq_true, if_false, ih]

/-! ### What one update emits (spec §4.3 / §4.4 step 1) -/

/-- The channel declarations among a list of metadata entries. -/
def segChansM (meta : List MetaEntry) : List ChanHdr :=
  meta.filterMap fun e =>
    match e.path, e.info with
    | .channel g c, some (t, n) => some ⟨g, c, t, n⟩
    | _, _ => none

theorem segChans_mk (mode : Layout) (meta : List MetaEntry) (raw : List Nat) :
    segChans ⟨mode, meta, raw⟩ = segChansM meta := rfl

theorem segChansM_append (m1 m2 : List MetaEntry) :
    segChansM (m1 ++ m2) = segChansM m1 ++ segChansM m2 :=
  List.filterMap_append _ _ _

theorem filter_singleton_cd (g2 c2 : List Nat) (t : TdsType) (d : List Nat)
    (g c : List Nat) :
    (([⟨g2, c2, t, d⟩] : List CData).filter fun x => decide (x.g = g ∧ x.c = c)).flatMap
      (fun x => x.d) = if g2 = g ∧ c2 = c then d else [] := by
  by_cases hc : g2 = g ∧ c2 = c <;> simp [List.filter_cons, hc]

theorem applyUpdate_spec (reg : List (ObjPath × RegEntry)) (u : TdmsObject)
    (reg1 : List (ObjPath × RegEntry)) (m1 : List MetaEntry) (cd1 : List CData)
    (h : applyUpdate reg u = .ok (reg1, m1, cd1)) :
    segChansM m1 = cd1.map CData.hdr ∧
    (∀ g c, (cd1.filter fun x => decide (x.g = g ∧ x.c = c)).flatMap (fun x => x.d)
        = callData g c u) ∧
    ((cd1.filter fun x => decide (x.d ≠ [])) = updCDatas [u]) ∧
    (objValidB u = true → ∀ x ∈ cd1, ∀ v ∈ x.d, v < 256 ^ tsize x.t) ∧
    (∀ e ∈ m1, e.path = pathOf u) := by
  cases u with
  | rootObj props =>
    simp only [applyUpdate] at h
    match hl : lookupReg reg .root with
    | none =>
      rw [hl] at h
      simp only [Except.ok.injEq, Prod.mk.injEq] at h
      obtain ⟨_, hm, hcd⟩ := h
      subst hm; subst hcd
      refine ⟨rfl, fun g c => rfl, rfl, by simp, ?_⟩
      intro e he
      simp at he
      subst he
      rfl
    | some e0 =>
      rw [hl] at h
      simp only [Except.ok.injEq, Prod.mk.injEq] at h
      obtain ⟨_, hm, hcd⟩ := h
      subst hm; subst hcd
      refine ⟨?_, fun g c => rfl, rfl, by simp, ?_⟩
      · by_cases hd : diffProps e0.props props = [] <;> simp [hd, segChansM]
      · intro e he
        by_cases hd : diffProps e0.props props = [] <;> simp [hd] at he
        subst he
        rfl
  | groupObj g2 props =>
    simp only [applyUpdate] at h
    match hl : lookupReg reg (.group g2) with
    | none =>
      rw [hl] at h
      simp only [Except.ok.injEq, Prod.mk.injEq] at h
      obtain ⟨_, hm, hcd⟩ := h
      subst hm; subst hcd
      refine ⟨rfl, fun g c => rfl, rfl, by simp, ?_⟩
      intro e he
      simp at he
      subst he
      rfl
    | some e0 =>
      rw [hl] at h
      simp only [Except.ok.injEq, Prod.mk.injEq] at h
      obtain ⟨_, hm, hcd⟩ := h
      subst hm; subst hcd
      refine ⟨?_, fun g c => rfl, rfl, by simp, ?_⟩
      · by_cases hd : diffProps e0.props props = [] <;> simp [hd, segChansM]
      · intro e he
        by_cases hd : diffProps e0.props props = [] <;> simp [hd] at he
        subst he
        rfl
  | chanObj g2 c2 t props data =>
    simp only [applyUpdate] at h
    match hl : lookupReg reg (.channel g2 c2) with
    | none =>
      rw [hl] at h
      simp only [Except.ok.injEq, Prod.mk.injEq] at h
      obtain ⟨_, hm, hcd⟩ := h
      subst hm; subst hcd
      refine ⟨rfl, ?_, ?_, ?_, ?_⟩
      · intro g c
        rw [filter_singleton_cd]
        rfl
      · by_cases hdata : data = [] <;> simp [updCDatas, List.filter_cons, hdata]
      · intro hvb x hx v hv
        simp at hx
        subst hx
        simp only [objValidB, List.all_eq_true] at hvb
        exact Nat.lt_of_lt_of_le (by exact_mod_cast (by simpa using hvb v hv)) (Nat.le_refl _)
      · intro e he
        simp at he
        subst he
        rfl
    | some e0 =>
      simp only [hl] at h
      match ht0 : e0.chanType with
      | some t0 =>
        simp only [ht0] at h
        by_cases htt : t0 = t
        · rw [if_pos htt] at h
          simp only [Except.ok.injEq, Prod.mk.injEq] at h
          obtain ⟨_, hm, hcd⟩ := h
          subst hm; subst hcd
          by_cases hdata : data = []
          · by_cases hdiff : diffProps e0.props props = []
            · refine ⟨by simp [hdiff, hdata, segChansM], ?_, by simp [hdata, updCDatas], by simp [hdata], by simp [hdiff, hdata]⟩
              intro g c
              simp only [hdata, if_pos, callData]
              simp [hdata, ite_self]
            · refine ⟨by simp [hdiff, hdata, segChansM], ?_, by simp [hdata, updCDatas], by simp [hdata], ?_⟩
              · intro g c
                simp only [hdata, callData]
                simp [hdata, ite_self, hdiff]
              · intro e he
                simp [hdiff, hdata] at he
                subst he
                rfl
          · have hne : ¬ (diffProps e0.props props = [] ∧ data = []) := by
              intro hcon; exact hdata hcon.2
            refine ⟨by simp [hne, hdata, segChansM, CData.hdr], ?_, ?_, ?_, ?_⟩
            · intro g c
              rw [if_neg hdata, filter_singleton_cd]
              rfl
            · rw [if_neg hdata]
              simp [updCDatas, List.filter_cons, hdata]
            · intro hvb x hx v hv
              rw [if_neg hdata] at hx
              simp at hx
              subst hx
              simp only [objValidB, List.all_eq_true] at hvb
              simpa using hvb v hv
            · intro e he
              simp [hne, hdata] at he
              subst he
              rfl
        · rw [if_neg htt] at h
          exact absurd h (by simp)
      | none =>
        simp only [ht0] at h
        simp only [Except.ok.injEq, Prod.mk.injEq] at h
        obtain ⟨_, hm, hcd⟩ := h
        subst hm; subst hcd
        refine ⟨rfl, ?_, ?_, ?_, ?_⟩
        · intro g c
          rw [filter_singleton_cd]
          rfl
        · by_cases hdata : data = [] <;> simp [updCDatas, List.filter_cons, hdata]
        · intro hvb x hx v hv
          simp at hx
          subst hx
          simp only [objValidB, List.all_eq_true] at hvb
          simpa using hvb v hv
        · intro e he
          simp at he
          subst he
          rfl

theorem updCDatas_cons (u : TdmsObject) (us : List TdmsObject) :
    updCDatas (u :: us) = updCDatas [u] ++ updCDatas us := by
  cases u with
  | chanObj g c t p d => by_cases hd : d = [] <;> simp [updCDatas, hd]
  | rootObj p => simp [updCDatas]
  | groupObj g p => simp [updCDatas]

theorem procUpdates_spec : ∀ (objs : List TdmsObject) (reg reg2 : List (ObjPath × RegEntry))
    (meta : List MetaEntry) (cds : List CData),
    procUpdates reg objs = .ok (reg2, meta, cds) →
    segChansM meta = cds.map CData.hdr ∧
    (∀ g c, (cds.filter fun x => decide (x.g = g ∧ x.c = c)).flatMap (fun x => x.d)
        = objs.flatMap (callData g c)) ∧
    ((cds.filter fun x => decide (x.d ≠ [])) = updCDatas objs) ∧
    ((∀ u ∈ objs, objValidB u = true) → ∀ x ∈ cds, ∀ v ∈ x.d, v < 256 ^ tsize x.t) ∧
    (∀ e ∈ meta, ∃ u ∈ objs, e.path = pathOf u) := by
  intro objs
  induction objs with
  | nil =>
    intro reg reg2 meta cds h
    simp only [procUpdates, Except.ok.injEq, Prod.mk.injEq] at h
    obtain ⟨_, hm, hc⟩ := h
    subst hm; subst hc
    exact ⟨rfl, fun g c => rfl, rfl, by simp, by simp⟩
  | cons u us ih =>
    intro reg reg2 meta cds h
    simp only [procUpdates] at h
    match h1 : applyUpdate reg u with
    | .error e =>
      simp only [h1] at h
      exact absurd h (by simp)
    | .ok (reg1, m1, cd1) =>
      simp only [h1] at h
      match h2 : procUpdates reg1 us with
      | .error e =>
        simp only [h2] at h
        exact absurd h (by simp)
      | .ok (reg2b, m2, cd2) =>
        simp only [h2, Except.ok.injEq, Prod.mk.injEq] at h
        obtain ⟨hr, hm, hc⟩ := h
        subst hm; subst hc
        obtain ⟨a1, a2, a3, a4, a5⟩ := applyUpdate_spec reg u reg1 m1 cd1 h1
        obtain ⟨b1, b2, b3, b4, b5⟩ := ih reg1 reg2b m2 cd2 h2
        refine ⟨?_, ?_, ?_, ?_, ?_⟩
        · rw [segChansM_append, a1, b1, List.map_append]
        · intro g c
          rw [List.filter_append, List.flatMap_append, a2, b2, List.flatMap_cons]
        · rw [List.filter_append, a3, b3, updCDatas_cons u us]
        · intro hval x hx v hv
          rcases List.mem_append.mp hx with hx1 | hx2
          · exact a4 (hval u (by simp)) x hx1 v hv
          · exact b4 (fun u2 hu2 => hval u2 (List.mem_cons_of_mem u hu2)) x hx2 v hv
        · intro e he
          rcases List.mem_append.mp he with he1 | he2
          · exact ⟨u, by simp, a5 e he1⟩
          · obtain ⟨u2, hu2, hp⟩ := b5 e he2
            exact ⟨u2, List.mem_cons_of_mem u hu2, hp⟩

/-! ### Registry / type-table agreement (spec §3 fixed-type invariant) -/

/-- The channel value type the registry records. -/
def regChanType (reg : List (ObjPath × RegEntry)) (g c : List Nat) : Option TdsType :=
  match lookupReg reg (.channel g c) with
  | some e => e.chanType
  | none => none

/-- The reader's first-seen type table agrees with the writer's registry. -/
def AgreeT (tm : List ((List Nat × List Nat) × TdsType))
    (reg : List (ObjPath × RegEntry)) : Prop :=
  ∀ g c, lookupT tm (g, c) = regChanType reg g c

theorem lookupReg_updateReg (reg : List (ObjPath × RegEntry)) (p q : ObjPath)
    (e : RegEntry) :
    lookupReg (updateReg reg p e) q = if p = q then some e else lookupReg reg q := by
  induction reg with
  | nil => by_cases h : p = q <;> simp [updateReg, lookupReg, h]
  | cons pe reg ih =>
    obtain ⟨p0, e0⟩ := pe
    by_cases h0 : p0 = p
    · subst h0
      by_cases hq : p0 = q
      · subst hq
        simp [updateReg, lookupReg]
      · simp [updateReg, lookupReg, hq]
    · by_cases hq : p0 = q
      · subst hq
        have hpq : ¬ p = p0 := fun hh => h0 hh.symm
        simp [updateReg, lookupReg, h0, hpq]
      · simp [updateReg, lookupReg, h0, hq, ih]

theorem addTypes_append : ∀ (h1 : List ChanHdr) (tm : List ((List Nat × List Nat) × TdsType))
    (h2 : List ChanHdr),
    addTypes tm (h1 ++ h2) =
      match addTypes tm h1 with
      | some tm1 => addTypes tm1 h2
      | none => none := by
  intro h1
  induction h1 with
  | nil => intro tm h2; simp [addTypes]
  | cons h hs ih =>
    intro tm h2
    simp only [List.cons_append, addTypes]
    match hl : lookupT tm (h.g, h.c) with
    | none => exact ih _ h2
    | some t0 =>
      by_cases ht : t0 = h.t
      · simp only [ht, if_true]
        exact ih _ h2
      · simp [ht]

theorem applyUpdate_types (reg : List (ObjPath × RegEntry)) (u : TdmsObject)
    (reg1 : List (ObjPath × RegEntry)) (m1 : List MetaEntry) (cd1 : List CData)
    (h : applyUpdate reg u = .ok (reg1, m1, cd1))
    (tm : List ((List Nat × List Nat) × TdsType)) (ha : AgreeT tm reg) :
    ∃ tm1, addTypes tm (segChansM m1) = some tm1 ∧ AgreeT tm1 reg1 := by
  cases u with
  | rootObj props =>
    simp only [applyUpdate] at h
    match hl : lookupReg reg .root with
    | none =>
      simp only [hl, Except.ok.injEq, Prod.mk.injEq] at h
      obtain ⟨hr, hm, _⟩ := h
      subst hm
      refine ⟨tm, rfl, ?_⟩
      intro g c
      rw [ha g c]
      simp [regChanType, ← hr, lookupReg_updateReg]
    | some e0 =>
      simp only [hl, Except.ok.injEq, Prod.mk.injEq] at h
      obtain ⟨hr, hm, _⟩ := h
      have hch : segChansM m1 = [] := by
        rw [← hm]
        by_cases hd : diffProps e0.props props = [] <;> simp [hd, segChansM]
      rw [hch]
      refine ⟨tm, rfl, ?_⟩
      intro g c
      rw [ha g c]
      simp [regChanType, ← hr, lookupReg_updateReg]
  | groupObj g2 props =>
    simp only [applyUpdate] at h
    match hl : lookupReg reg (.group g2) with
    | none =>
      simp only [hl, Except.ok.injEq, Prod.mk.injEq] at h
      obtain ⟨hr, hm, _⟩ := h
      subst hm
      refine ⟨tm, rfl, ?_⟩
      intro g c
      rw [ha g c]
      simp [regChanType, ← hr, lookupReg_updateReg]
    | some e0 =>
      simp only [hl, Except.ok.injEq, Prod.mk.injEq] at h
      obtain ⟨hr, hm, _⟩ := h
      have hch : segChansM m1 = [] := by
        rw [← hm]
        by_cases hd : diffProps e0.props props = [] <;> simp [hd, segChansM]
      rw [hch]
      refine ⟨tm, rfl, ?_⟩
      intro g c
      rw [ha g c]
      simp [regChanType, ← hr, lookupReg_updateReg]
  | chanObj g2 c2 t props data =>
    simp only [applyUpdate] at h
    match hl : lookupReg reg (.channel g2 c2) with
    | none =>
      simp only [hl, Except.ok.injEq, Prod.mk.injEq] at h
      obtain ⟨hr, hm, _⟩ := h
      subst hm
      have hlt : lookupT tm (g2, c2) = none := by
        rw [ha g2 c2]
        simp [regChanType, hl]
      refine ⟨((g2, c2), t) :: tm, ?_, ?_⟩
      · simp [segChansM, addTypes, hlt]
      · intro g c
        by_cases hgc : g2 = g ∧ c2 = c
        · obtain ⟨hg, hc⟩ := hgc
          subst hg; subst hc
          simp [lookupT, regChanType, ← hr, lookupReg_updateReg]
        · have hne : ¬ ((g2, c2) = (g, c)) := by
            intro hh
            exact hgc ⟨congrArg Prod.fst hh, congrArg Prod.snd hh⟩
          have hpne : ¬ (ObjPath.channel g2 c2 = .channel g c) := by
            intro hh
            injection hh with hg hc
            exact hgc ⟨hg, hc⟩
          rw [← hr]
          simp only [lookupT, hne, if_false, regChanType, lookupReg_updateReg, hpne]
          exact ha g c
    | some e0 =>
      simp only [hl] at h
      match ht0 : e0.chanType with
      | some t0 =>
        simp only [ht0] at h
        by_cases htt : t0 = t
        · rw [if_pos htt] at h
          simp only [Except.ok.injEq, Prod.mk.injEq] at h
          obtain ⟨hr, hm, _⟩ := h
          have hlt : lookupT tm (g2, c2) = some t0 := by
            rw [ha g2 c2]
            simp [regChanType, hl, ht0]
          have hagree : AgreeT tm reg1 := by
            intro g c
            by_cases hgc : g2 = g ∧ c2 = c
            · obtain ⟨hg, hc⟩ := hgc
              subst hg; subst hc
              rw [← hr]
              simp [regChanType, lookupReg_updateReg, hlt, htt]
            · have hpne : ¬ (ObjPath.channel g2 c2 = .channel g c) := by
                intro hh
                injection hh with hg hc
                exact hgc ⟨hg, hc⟩
              rw [← hr]
              simp only [regChanType, lookupReg_updateReg, hpne, if_false]
              exact ha g c
          by_cases hcase : diffProps e0.props props = [] ∧ data = []
          · refine ⟨tm, ?_, hagree⟩
            rw [← hm]
            simp [hcase, segChansM, addTypes]
          · by_cases hdata : data = []
            · refine ⟨tm, ?_, hagree⟩
              rw [← hm]
              have hdiff : ¬ diffProps e0.props props = [] := fun hd => hcase ⟨hd, hdata⟩
              simp [hcase, hdata, hdiff, segChansM, addTypes]
            · refine ⟨tm, ?_, hagree⟩
              rw [← hm]
              simp [hcase, hdata, segChansM, addTypes, hlt, htt]
        · rw [if_neg htt] at h
          exact absurd h (by simp)
      | none =>
        simp only [ht0, Except.ok.injEq, Prod.mk.injEq] at h
        obtain ⟨hr, hm, _⟩ := h
        have hlt : lookupT tm (g2, c2) = none := by
          rw [ha g2 c2]
          simp [regChanType, hl, ht0]
        refine ⟨((g2, c2), t) :: tm, ?_, ?_⟩
        · rw [← hm]
          simp [segChansM, addTypes, hlt]
        · intro g c
          by_cases hgc : g2 = g ∧ c2 = c
          · obtain ⟨hg, hc⟩ := hgc
            subst hg; subst hc
            simp [lookupT, regChanType, ← hr, lookupReg_updateReg]
          · have hne : ¬ ((g2, c2) = (g, c)) := by
              intro hh
              exact hgc ⟨congrArg Prod.fst hh, congrArg Prod.snd hh⟩
            have hpne : ¬ (ObjPath.channel g2 c2 = .channel g c) := by
              intro hh
              injection hh with hg hc
              exact hgc ⟨hg, hc⟩
            rw [← hr]
            simp only [lookupT, hne, if_false, regChanType, lookupReg_updateReg, hpne]
            exact ha g c

theorem procUpdates_types : ∀ (objs : List TdmsObject) (reg reg2 : List (ObjPath × RegEntry))
    (meta : List MetaEntry) (cds : List CData)
    (tm : List ((List Nat × List Nat) × TdsType)),
    procUpdates reg objs = .ok (reg2, meta, cds) → AgreeT tm reg →
    ∃ tm2, addTypes tm (segChansM meta) = some tm2 ∧ AgreeT tm2 reg2 := by
  intro objs
  induction objs with
  | nil =>
    intro reg reg2 meta cds tm h ha
    simp only [procUpdates, Except.ok.injEq, Prod.mk.injEq] at h
    obtain ⟨hr, hm, _⟩ := h
    subst hm
    exact ⟨tm, rfl, hr ▸ ha⟩
  | cons u us ih =>
    intro reg reg2 meta cds tm h ha
    simp only [procUpdates] at h
    match h1 : applyUpdate reg u with
    | .error e =>
      simp only [h1] at h
      exact absurd h (by simp)
    | .ok (reg1, m1, cd1) =>
      simp only [h1] at h
      match h2 : procUpdates reg1 us with
      | .error e =>
        simp only [h2] at h
        exact absurd h (by simp)
      | .ok (reg2b, m2, cd2) =>
        simp only [h2, Except.ok.injEq, Prod.mk.injEq] at h
        obtain ⟨hr, hm, _⟩ := h
        subst hm
        obtain ⟨tm1, htm1, ha1⟩ := applyUpdate_types reg u reg1 m1 cd1 h1 tm ha
        obtain ⟨tm2, htm2, ha2⟩ := ih reg1 reg2b m2 cd2 tm1 h2 ha1
        refine ⟨tm2, ?_, hr ▸ ha2⟩
        rw [segChansM_append, addTypes_append, htm1]
        exact htm2

theorem readTypes_append (tm : List ((List Nat × List Nat) × TdsType))
    (l1 l2 : List Seg) :
    readTypes tm (l1 ++ l2) =
      match readTypes tm l1 with
      | some tmx => readTypes tmx l2
      | none => none := by
  induction l1 generalizing tm with
  | nil => simp [readTypes]
  | cons s l1 ih =>
    simp only [List.cons_append, readTypes]
    match ha : addTypes tm (segChans s) with
    | none => rfl
    | some tmx => exact ih tmx

/-! ### Interleaved length discipline -/

theorem sameLens_mem (l : List CData) (hs : sameLens l = true) :
    ∀ x ∈ l, ∀ y ∈ l, x.d.length = y.d.length := by
  intro x hx y hy
  cases l with
  | nil => simp at hx
  | cons h t =>
    simp only [sameLens, List.all_eq_true] at hs
    have hx2 : x.d.length = h.d.length := by
      rcases List.mem_cons.mp hx with h1 | h1
      · rw [h1]
      · simpa using hs x h1
    have hy2 : y.d.length = h.d.length := by
      rcases List.mem_cons.mp hy with h1 | h1
      · rw [h1]
      · simpa using hs y h1
    omega

theorem maxLen_ge (l : List CData) : ∀ x ∈ l, x.d.length ≤ maxLen l := by
  induction l with
  | nil => intro x hx; simp at hx
  | cons h t ih =>
    intro x hx
    rcases List.mem_cons.mp hx with h1 | h1
    · subst h1
      simp only [maxLen, List.map_cons, List.foldr_cons]
      exact Nat.le_max_left _ _
    · have := ih x h1
      simp only [maxLen, List.map_cons, List.foldr_cons]
      simp only [maxLen] at this
      exact Nat.le_trans this (Nat.le_max_right _ _)

theorem maxLen_le (l : List CData) (L : Nat) (hb : ∀ x ∈ l, x.d.length ≤ L) :
    maxLen l ≤ L := by
  induction l with
  | nil => simp [maxLen]
  | cons h t ih =>
    simp only [maxLen, List.map_cons, List.foldr_cons]
    apply Nat.max_le.mpr
    constructor
    · exact hb h (by simp)
    · have : ∀ x ∈ t, x.d.length ≤ L := fun x hx => hb x (List.mem_cons_of_mem h hx)
      simp only [maxLen] at ih
      exact ih this

theorem sameLens_maxLen (cds : List CData)
    (hs : sameLens (cds.filter fun x => decide (x.d ≠ [])) = true) :
    ∀ x ∈ cds, x.d = [] ∨ x.d.length = maxLen cds := by
  intro x hx
  by_cases hxe : x.d = []
  · exact Or.inl hxe
  · right
    have hxf : x ∈ cds.filter fun y => decide (y.d ≠ []) := by
      rw [List.mem_filter]
      exact ⟨hx, by simpa using hxe⟩
    have hub : ∀ y ∈ cds, y.d.length ≤ x.d.length := by
      intro y hy
      by_cases hye : y.d = []
      · simp [hye]
      · have hyf : y ∈ cds.filter fun z => decide (z.d ≠ []) := by
          rw [List.mem_filter]
          exact ⟨hy, by simpa using hye⟩
        have := sameLens_mem _ hs y hyf x hxf
        omega
    have h1 := maxLen_ge cds x hx
    have h2 := maxLen_le cds x.d.length hub
    omega

/-! ### One `writeSegment` call appends one well-formed segment -/

theorem writeSegment_build (mode : Layout) (objs : List TdmsObject) (st st1 : WriterState)
    (hval : ∀ u ∈ objs, objValidB u = true)
    (h : writeSegment mode objs st = .ok st1)
    (tm : List ((List Nat × List Nat) × TdsType)) (ha : AgreeT tm st.registry) :
    ∃ seg tm1,
      st1.file = st.file ++ encodeSeg seg ∧
      addTypes tm (segChans seg) = some tm1 ∧
      AgreeT tm1 st1.registry ∧
      (∀ g c, segValues seg g c = objs.flatMap (callData g c)) ∧
      (∀ g c, ((segChans seg).filterMap fun h2 =>
          if h2.g = g ∧ h2.c = c then some h2.n else none).sum
        = (objs.flatMap (callData g c)).length) ∧
      (∀ e ∈ seg.meta, ∃ u ∈ objs, e.path = pathOf u) := by
  unfold writeSegment at h
  by_cases hlay : layoutOK mode objs = true
  · rw [if_pos hlay] at h
    match hp : procUpdates st.registry objs with
    | .error e =>
      simp only [hp] at h
      exact absurd h (by simp)
    | .ok (reg2, meta, cds) =>
      simp only [hp, Except.ok.injEq] at h
      obtain ⟨a1, a2, a3, a4, a5⟩ := procUpdates_spec objs st.registry reg2 meta cds hp
      obtain ⟨tm1, htm1, ha1⟩ := procUpdates_types objs st.registry reg2 meta cds tm hp ha
      have hch : segChans ⟨mode, meta, encodeRaw mode cds⟩ = cds.map CData.hdr := by
        rw [segChans_mk, a1]
      have hint : (⟨mode, meta, encodeRaw mode cds⟩ : Seg).mode = .interleaved →
          ∀ x ∈ cds, x.d = [] ∨ x.d.length = maxLen cds := by
        intro hm
        apply sameLens_maxLen
        rw [a3]
        simp only at hm
        rw [hm] at hlay
        simpa [layoutOK] using hlay
      have hv : ∀ x ∈ cds, ∀ v ∈ x.d, v < 256 ^ tsize x.t := a4 hval
      refine ⟨⟨mode, meta, encodeRaw mode cds⟩, tm1, ?_, ?_, ?_, ?_, ?_, ?_⟩
      · rw [← h]
      · rw [hch, ← a1]
        exact htm1
      · rw [← h]
        exact ha1
      · intro g c
        rw [segValues_eq ⟨mode, meta, encodeRaw mode cds⟩ cds g c hch rfl hint hv, a2]
      · intro g c
        rw [hch, segChans_count, a2]
      · exact a5
  · rw [if_neg hlay] at h
    exact absurd h (by simp)

/-! ### A whole writing session produces a readable file -/

theorem writeMany_build : ∀ (calls : List (Layout × List TdmsObject)) (st st2 : WriterState)
    (tm : List ((List Nat × List Nat) × TdsType)),
    (∀ cl ∈ calls, ∀ u ∈ cl.2, objValidB u = true) →
    writeMany calls st = .ok st2 → AgreeT tm st.registry →
    ∃ segs tm2,
      st2.file = st.file ++ (segs.map encodeSeg).flatten ∧
      readTypes tm segs = some tm2 ∧
      AgreeT tm2 st2.registry ∧
      (∀ g c, channelValues segs g c = contributions calls g c) ∧
      (∀ g c, channelLength segs g c = (contributions calls g c).length) ∧
      (∀ s ∈ segs, ∀ e ∈ s.meta, ∃ cl ∈ calls, ∃ u ∈ cl.2, e.path = pathOf u) := by
  intro calls
  induction calls with
  | nil =>
    intro st st2 tm _ h ha
    simp only [writeMany, Except.ok.injEq] at h
    subst h
    refine ⟨[], tm, by simp, rfl, ha, ?_, ?_, by simp⟩
    · intro g c; rfl
    · intro g c; rfl
  | cons cl rest ih =>
    intro st st2 tm hval h ha
    obtain ⟨mode, objs⟩ := cl
    simp only [writeMany] at h
    match hw : writeSegment mode objs st with
    | .error e =>
      simp only [hw] at h
      exact absurd h (by simp)
    | .ok st1 =>
      simp only [hw] at h
      obtain ⟨seg, tm1, f1, t1, g1, v1, l1, p1⟩ :=
        writeSegment_build mode objs st st1 (fun u hu => hval (mode, objs) (by simp) u hu)
          hw tm ha
      obtain ⟨segs, tm2, f2, t2, g2, v2, l2, p2⟩ := ih st1 st2 tm1
        (fun cl2 hcl2 u hu => hval cl2 (List.mem_cons_of_mem _ hcl2) u hu) h g1
      refine ⟨seg :: segs, tm2, ?_, ?_, g2, ?_, ?_, ?_⟩
      · rw [f2, f1]
        simp [List.append_assoc]
      · simp only [readTypes, t1]
        exact t2
      · intro g c
        simp only [channelValues, List.flatMap_cons, contributions] at v2 ⊢
        rw [v1 g c, v2 g c]
      · intro g c
        simp only [channelLength, List.flatMap_cons, List.sum_append, contributions,
          List.length_append] at l2 ⊢
        rw [l1 g c, l2 g c]
      · intro s hs e he
        rcases List.mem_cons.mp hs with h1 | h1
        · subst h1
          obtain ⟨u, hu, hp⟩ := p1 e he
          exact ⟨(mode, objs), by simp, u, hu, hp⟩
        · obtain ⟨cl2, hcl2, u, hu, hp⟩ := p2 s h1 e he
          exact ⟨cl2, List.mem_cons_of_mem _ hcl2, u, hu, hp⟩

/-! ### Opening a writer-produced file -/

theorem agree_init : AgreeT [] [] := fun _ _ => rfl

theorem scanF_flatten_nil (segs : List Seg) (f : Nat)
    (hf : (segs.map encodeSeg).flatten.length ≤ f) :
    scanF f ((segs.map encodeSeg).flatten) 0 = (segs, none) := by
  have h := scanF_flatten segs [] 0 f (by simpa using hf)
  simp only [List.append_nil] at h
  rw [h, scanF_nil]
  simp

theorem openFile_writeMany (calls : List (Layout × List TdmsObject)) (st2 : WriterState)
    (hval : ∀ cl ∈ calls, ∀ u ∈ cl.2, objValidB u = true)
    (h : writeMany calls initState = .ok st2) :
    ∃ segs,
      openFile st2.file = (segs, none) ∧
      (∀ g c, channelValues segs g c = contributions calls g c) ∧
      (∀ g c, channelLength segs g c = (contributions calls g c).length) ∧
      (∀ s ∈ segs, ∀ e ∈ s.meta, ∃ cl ∈ calls, ∃ u ∈ cl.2, e.path = pathOf u) := by
  obtain ⟨segs, tm2, hf, ht, _, hv, hl, hp⟩ :=
    writeMany_build calls initState st2 [] hval h agree_init
  simp only [initState, List.nil_append] at hf
  refine ⟨segs, ?_, hv, hl, hp⟩
  have hscan : scanF st2.file.length st2.file 0 = (segs, none) := by
    rw [hf]
    exact scanF_flatten_nil segs _ (Nat.le_refl _)
  unfold openFile
  simp only [hscan, ht, Option.isSome_some, if_true]

/-- The layout check accepts any single-object update list. -/
theorem layoutOK_single (mode : Layout) (u : TdmsObject) :
    layoutOK mode [u] = true := by
  cases mode with
  | contiguous => rfl
  | interleaved =>
    cases u with
    | chanObj g c t p d => by_cases hd : d = [] <;> simp [layoutOK, updCDatas, hd, sameLens]
    | rootObj p => simp [layoutOK, updCDatas, sameLens]
    | groupObj g p => simp [layoutOK, updCDatas, sameLens]

theorem encodeRaw_nil (mode : Layout) : encodeRaw mode [] = [] := by
  cases mode <;> rfl

theorem flatten_flatMap (l : List (List Nat)) (f : Nat → List Nat) :
    l.flatten.flatMap f = (l.map fun q => q.flatMap f).flatten := by
  induction l with
  | nil => rfl
  | cons q l ih => simp [List.flatMap_append, ih]

/-! ### Property lookup facts used for the idempotence claim -/

theorem lookupProp_append (a b : List (List Nat × PropValue)) (k : List Nat) :
    lookupProp (a ++ b) k =
      match lookupProp a k with
      | some v => some v
      | none => lookupProp b k := by
  induction a with
  | nil => simp [lookupProp]
  | cons kv a ih =>
    obtain ⟨k0, v0⟩ := kv
    by_cases hk : k0 = k
    · simp [lookupProp, hk]
    · simp [lookupProp, hk, ih]

theorem lookupProp_filter_none (old new : List (List Nat × PropValue)) (k : List Nat)
    (hs : (lookupProp new k).isSome = true) :
    lookupProp (old.filter fun kv => (lookupProp new kv.1).isNone) k = none := by
  induction old with
  | nil => rfl
  | cons kv old ih =>
    obtain ⟨k0, v0⟩ := kv
    by_cases hin : (lookupProp new k0).isNone = true
    · by_cases hk : k0 = k
      · subst hk
        rw [Option.isNone_iff_eq_none] at hin
        rw [hin] at hs
        simp at hs
      · simp [List.filter_cons, hin, lookupProp, hk, ih]
    · simp [List.filter_cons, hin, ih]

theorem lookupProp_nodup (new : List (List Nat × PropValue)) (k : List Nat) (v : PropValue)
    (hmem : (k, v) ∈ new) (hnd : (new.map Prod.fst).Nodup) :
    lookupProp new k = some v := by
  induction new with
  | nil => simp at hmem
  | cons kv new ih =>
    obtain ⟨k0, v0⟩ := kv
    rcases List.mem_cons.mp hmem with h1 | h1
    · obtain ⟨hk, hv⟩ := Prod.mk.injEq .. ▸ h1
      injection h1 with hk hv
      subst hk; subst hv
      simp [lookupProp]
    · have hk0 : k0 ≠ k := by
        intro hk
        subst hk
        simp only [List.map_cons, List.nodup_cons] at hnd
        exact hnd.1 (List.mem_map.mpr ⟨(k0, v), h1, rfl⟩)
      simp only [lookupProp, hk0, if_false]
      exact ih h1 (by simp only [List.map_cons, List.nodup_cons] at hnd; exact hnd.2)

theorem lookupProp_merge (old new : List (List Nat × PropValue)) (k : List Nat)
    (v : PropValue) (hmem : (k, v) ∈ new) (hnd : (new.map Prod.fst).Nodup) :
    lookupProp (mergeProps old new) k = some v := by
  have hn := lookupProp_nodup new k v hmem hnd
  have hs : (lookupProp new k).isSome = true := by simp [hn]
  unfold mergeProps
  rw [lookupProp_append, lookupProp_filter_none old new k hs, hn]

theorem diffProps_nil_of (old new : List (List Nat × PropValue))
    (h : ∀ kv ∈ new, lookupProp old kv.1 = some kv.2) :
    diffProps old new = [] := by
  unfold diffProps
  rw [List.filter_eq_nil_iff]
  intro kv hkv
  simp [h kv hkv]

/-! ### Repeating identical properties: registry facts after a write -/

/-- The same update with its channel data removed: a pure property repeat. -/
def repeatOf : TdmsObject → TdmsObject
  | .rootObj props => .rootObj props
  | .groupObj g props => .groupObj g props
  | .chanObj g c t props _ => .chanObj g c t props []

theorem pathOf_repeatOf (u : TdmsObject) : pathOf (repeatOf u) = pathOf u := by
  cases u <;> rfl

theorem propsOf_repeatOf (u : TdmsObject) : propsOf (repeatOf u) = propsOf u := by
  cases u <;> rfl

/-- What `procUpdates` guarantees about the entry stored for each processed
path (spec §4.3: the registry holds the merged current state). -/
def EntryOK (reg : List (ObjPath × RegEntry)) (u : TdmsObject) : Prop :=
  ∃ e, lookupReg reg (pathOf u) = some e ∧
    (∀ kv ∈ propsOf u, lookupProp e.props kv.1 = some kv.2) ∧
    (∀ g c t p d, u = .chanObj g c t p d → e.chanType = some t)

theorem applyUpdate_frame (reg : List (ObjPath × RegEntry)) (u : TdmsObject)
    (reg1 : List (ObjPath × RegEntry)) (m1 : List MetaEntry) (cd1 : List CData)
    (h : applyUpdate reg u = .ok (reg1, m1, cd1)) (q : ObjPath) (hq : q ≠ pathOf u) :
    lookupReg reg1 q = lookupReg reg q := by
  cases u with
  | rootObj props =>
    simp only [applyUpdate] at h
    simp only [pathOf] at hq
    match hl : lookupReg reg .root with
    | none =>
      simp only [hl, Except.ok.injEq, Prod.mk.injEq] at h
      rw [← h.1, lookupReg_updateReg, if_neg (fun hh => hq hh.symm)]
    | some e0 =>
      simp only [hl, Except.ok.injEq, Prod.mk.injEq] at h
      rw [← h.1, lookupReg_updateReg, if_neg (fun hh => hq hh.symm)]
  | groupObj g props =>
    simp only [applyUpdate] at h
    simp only [pathOf] at hq
    match hl : lookupReg reg (.group g) with
    | none =>
      simp only [hl, Except.ok.injEq, Prod.mk.injEq] at h
      rw [← h.1, lookupReg_updateReg, if_neg (fun hh => hq hh.symm)]
    | some e0 =>
      simp only [hl, Except.ok.injEq, Prod.mk.injEq] at h
      rw [← h.1, lookupReg_updateReg, if_neg (fun hh => hq hh.symm)]
  | chanObj g c t props data =>
    simp only [applyUpdate] at h
    simp only [pathOf] at hq
    match hl : lookupReg reg (.channel g c) with
    | none =>
      simp only [hl, Except.ok.injEq, Prod.mk.injEq] at h
      rw [← h.1, lookupReg_updateReg, if_neg (fun hh => hq hh.symm)]
    | some e0 =>
      simp only [hl] at h
      match ht0 : e0.chanType with
      | some t0 =>
        simp only [ht0] at h
        by_cases htt : t0 = t
        · rw [if_pos htt] at h
          simp only [Except.ok.injEq, Prod.mk.injEq] at h
          rw [← h.1, lookupReg_updateReg, if_neg (fun hh => hq hh.symm)]
        · rw [if_neg htt] at h
          exact absurd h (by simp)
      | none =>
        simp only [ht0, Except.ok.injEq, Prod.mk.injEq] at h
        rw [← h.1, lookupReg_updateReg, if_neg (fun hh => hq hh.symm)]

theorem applyUpdate_self (reg : List (ObjPath × RegEntry)) (u : TdmsObject)
    (reg1 : List (ObjPath × RegEntry)) (m1 : List MetaEntry) (cd1 : List CData)
    (h : applyUpdate reg u = .ok (reg1, m1, cd1))
    (hkeys : ((propsOf u).map Prod.fst).Nodup) :
    EntryOK reg1 u := by
  cases u with
  | rootObj props =>
    simp only [applyUpdate] at h
    simp only [propsOf] at hkeys
    match hl : lookupReg reg .root with
    | none =>
      simp only [hl, Except.ok.injEq, Prod.mk.injEq] at h
      refine ⟨⟨props, none, 0⟩, ?_, ?_, ?_⟩
      · rw [show pathOf (.rootObj props) = .root from rfl, ← h.1, lookupReg_updateReg,
          if_pos rfl]
      · intro kv hkv
        exact lookupProp_nodup props kv.1 kv.2 hkv hkeys
      · intro g c t p d hu
        simp at hu
    | some e0 =>
      simp only [hl, Except.ok.injEq, Prod.mk.injEq] at h
      refine ⟨⟨mergeProps e0.props props, e0.chanType, e0.count⟩, ?_, ?_, ?_⟩
      · rw [show pathOf (.rootObj props) = .root from rfl, ← h.1, lookupReg_updateReg,
          if_pos rfl]
      · intro kv hkv
        exact lookupProp_merge e0.props props kv.1 kv.2 hkv hkeys
      · intro g c t p d hu
        simp at hu
  | groupObj g2 props =>
    simp only [applyUpdate] at h
    simp only [propsOf] at hkeys
    match hl : lookupReg reg (.group g2) with
    | none =>
      simp only [hl, Except.ok.injEq, Prod.mk.injEq] at h
      refine ⟨⟨props, none, 0⟩, ?_, ?_, ?_⟩
      · rw [show pathOf (.groupObj g2 props) = .group g2 from rfl, ← h.1,
          lookupReg_updateReg, if_pos rfl]
      · intro kv hkv
        exact lookupProp_nodup props kv.1 kv.2 hkv hkeys
      · intro g c t p d hu
        simp at hu
    | some e0 =>
      simp only [hl, Except.ok.injEq, Prod.mk.injEq] at h
      refine ⟨⟨mergeProps e0.props props, e0.chanType, e0.count⟩, ?_, ?_, ?_⟩
      · rw [show pathOf (.groupObj g2 props) = .group g2 from rfl, ← h.1,
          lookupReg_updateReg, if_pos rfl]
      · intro kv hkv
        exact lookupProp_merge e0.props props kv.1 kv.2 hkv hkeys
      · intro g c t p d hu
        simp at hu
  | chanObj g2 c2 t2 props data =>
    simp only [applyUpdate] at h
    simp only [propsOf] at hkeys
    match hl : lookupReg reg (.channel g2 c2) with
    | none =>
      simp only [hl, Except.ok.injEq, Prod.mk.injEq] at h
      refine ⟨⟨props, some t2, data.length⟩, ?_, ?_, ?_⟩
      · rw [show pathOf (.chanObj g2 c2 t2 props data) = .channel g2 c2 from rfl, ← h.1,
          lookupReg_updateReg, if_pos rfl]
      · intro kv hkv
        exact lookupProp_nodup props kv.1 kv.2 hkv hkeys
      · intro g c t p d hu
        injection hu with _ _ ht _ _
        rw [ht]
    | some e0 =>
      simp only [hl] at h
      match ht0 : e0.chanType with
      | some t0 =>
        simp only [ht0] at h
        by_cases htt : t0 = t2
        · rw [if_pos htt] at h
          simp only [Except.ok.injEq, Prod.mk.injEq] at h
          refine ⟨⟨mergeProps e0.props props, some t2, e0.count + data.length⟩, ?_, ?_, ?_⟩
          · rw [show pathOf (.chanObj g2 c2 t2 props data) = .channel g2 c2 from rfl,
              ← h.1, lookupReg_updateReg, if_pos rfl]
          · intro kv hkv
            exact lookupProp_merge e0.props props kv.1 kv.2 hkv hkeys
          · intro g c t p d hu
            injection hu with _ _ ht _ _
            rw [ht]
        · rw [if_neg htt] at h
          exact absurd h (by simp)
      | none =>
        simp only [ht0, Except.ok.injEq, Prod.mk.injEq] at h
        refine ⟨⟨mergeProps e0.props props, some t2, e0.count + data.length⟩, ?_, ?_, ?_⟩
        · rw [show pathOf (.chanObj g2 c2 t2 props data) = .channel g2 c2 from rfl,
            ← h.1, lookupReg_updateReg, if_pos rfl]
        · intro kv hkv
          exact lookupProp_merge e0.props props kv.1 kv.2 hkv hkeys
        · intro g c t p d hu
          injection hu with _ _ ht _ _
          rw [ht]

theorem procUpdates_frame : ∀ (objs : List TdmsObject) (reg reg2 : List (ObjPath × RegEntry))
    (meta : List MetaEntry) (cds : List CData) (q : ObjPath),
    procUpdates reg objs = .ok (reg2, meta, cds) → q ∉ objs.map pathOf →
    lookupReg reg2 q = lookupReg reg q := by
  intro objs
  induction objs with
  | nil =>
    intro reg reg2 meta cds q h _
    simp only [procUpdates, Except.ok.injEq, Prod.mk.injEq] at h
    rw [← h.1]
  | cons u us ih =>
    intro reg reg2 meta cds q h hq
    simp only [procUpdates] at h
    match h1 : applyUpdate reg u with
    | .error e =>
      simp only [h1] at h
      exact absurd h (by simp)
    | .ok (reg1, m1, cd1) =>
      simp only [h1] at h
      match h2 : procUpdates reg1 us with
      | .error e =>
        simp only [h2] at h
        exact absurd h (by simp)
      | .ok (reg2b, m2, cd2) =>
        simp only [h2, Except.ok.injEq, Prod.mk.injEq] at h
        have hq1 : q ≠ pathOf u := by
          intro hh
          exact hq (by simp [hh])
        have hq2 : q ∉ us.map pathOf := by
          intro hh
          exact hq (by simp; right; simpa using hh)
        rw [← h.1, ih reg1 reg2b m2 cd2 q h2 hq2,
          applyUpdate_frame reg u reg1 m1 cd1 h1 q hq1]

theorem procUpdates_after : ∀ (objs : List TdmsObject) (reg reg2 : List (ObjPath × RegEntry))
    (meta : List MetaEntry) (cds : List CData),
    procUpdates reg objs = .ok (reg2, meta, cds) →
    (objs.map pathOf).Nodup →
    (∀ u ∈ objs, ((propsOf u).map Prod.fst).Nodup) →
    ∀ u ∈ objs, EntryOK reg2 u := by
  intro objs
  induction objs with
  | nil => intro reg reg2 meta cds _ _ _ u hu; simp at hu
  | cons u0 us ih =>
    intro reg reg2 meta cds h hnd hkeys u hu
    simp only [procUpdates] at h
    match h1 : applyUpdate reg u0 with
    | .error e =>
      simp only [h1] at h
      exact absurd h (by simp)
    | .ok (reg1, m1, cd1) =>
      simp only [h1] at h
      match h2 : procUpdates reg1 us with
      | .error e =>
        simp only [h2] at h
        exact absurd h (by simp)
      | .ok (reg2b, m2, cd2) =>
        simp only [h2, Except.ok.injEq, Prod.mk.injEq] at h
        rcases List.mem_cons.mp hu with h3 | h3
        · subst h3
          obtain ⟨e, he, hp, ht⟩ := applyUpdate_self reg u reg1 m1 cd1 h1
            (hkeys u (by simp))
          refine ⟨e, ?_, hp, ht⟩
          have hnotin : pathOf u ∉ us.map pathOf := by
            simp only [List.map_cons, List.nodup_cons] at hnd
            exact hnd.1
          rw [← h.1, procUpdates_frame us reg1 reg2b m2 cd2 (pathOf u) h2 hnotin]
          exact he
        · have := ih reg1 reg2b m2 cd2 h2
            (by simp only [List.map_cons, List.nodup_cons] at hnd; exact hnd.2)
            (fun u2 hu2 => hkeys u2 (List.mem_cons_of_mem u0 hu2)) u h3
          rw [← h.1]
          exact this

theorem procUpdates_repeat : ∀ (objs2 : List TdmsObject) (reg : List (ObjPath × RegEntry)),
    (∀ u ∈ objs2, EntryOK reg u) →
    (objs2.map pathOf).Nodup →
    (∀ u ∈ objs2, ∀ g c t p d, u = .chanObj g c t p d → d = []) →
    ∃ reg2, procUpdates reg objs2 = .ok (reg2, [], []) := by
  intro objs2
  induction objs2 with
  | nil => intro reg _ _ _; exact ⟨reg, rfl⟩
  | cons u us ih =>
    intro reg hok hnd hdata
    obtain ⟨e, hle, hprops, htype⟩ := hok u (by simp)
    have hdiff : diffProps e.props (propsOf u) = [] :=
      diffProps_nil_of e.props (propsOf u) hprops
    have hstep : ∃ reg1, applyUpdate reg u = .ok (reg1, [], []) ∧
        ∀ q, q ≠ pathOf u → lookupReg reg1 q = lookupReg reg q := by
      cases u with
      | rootObj props =>
        simp only [pathOf] at hle
        simp only [propsOf] at hdiff
        refine ⟨updateReg reg .root ⟨mergeProps e.props props, e.chanType, e.count⟩, ?_, ?_⟩
        · simp [applyUpdate, hle, hdiff]
        · intro q hq
          rw [lookupReg_updateReg, if_neg (fun hh => hq (by simp [pathOf, ← hh]))]
      | groupObj g props =>
        simp only [pathOf] at hle
        simp only [propsOf] at hdiff
        refine ⟨updateReg reg (.group g) ⟨mergeProps e.props props, e.chanType, e.count⟩,
          ?_, ?_⟩
        · simp [applyUpdate, hle, hdiff]
        · intro q hq
          rw [lookupReg_updateReg, if_neg (fun hh => hq (by simp [pathOf, ← hh]))]
      | chanObj g c t props d =>
        simp only [pathOf] at hle
        simp only [propsOf] at hdiff
        have hd : d = [] := hdata (.chanObj g c t props d) (by simp) g c t props d rfl
        have htc : e.chanType = some t := htype g c t props d rfl
        subst hd
        refine ⟨updateReg reg (.channel g c)
          ⟨mergeProps e.props props, some t, e.count⟩, ?_, ?_⟩
        · simp [applyUpdate, hle, htc, hdiff]
        · intro q hq
          rw [lookupReg_updateReg, if_neg (fun hh => hq (by simp [pathOf, ← hh]))]
    obtain ⟨reg1, ha, hframe⟩ := hstep
    have hok2 : ∀ u2 ∈ us, EntryOK reg1 u2 := by
      intro u2 hu2
      obtain ⟨e2, hle2, hp2, ht2⟩ := hok u2 (List.mem_cons_of_mem u hu2)
      have hne : pathOf u2 ≠ pathOf u := by
        intro hh
        simp only [List.map_cons, List.nodup_cons] at hnd
        exact hnd.1 (hh ▸ List.mem_map.mpr ⟨u2, hu2, rfl⟩)
      exact ⟨e2, by rw [hframe (pathOf u2) hne]; exact hle2, hp2, ht2⟩
    obtain ⟨reg2, hrest⟩ := ih reg1 hok2
      (by simp only [List.map_cons, List.nodup_cons] at hnd; exact hnd.2)
      (fun u2 hu2 => hdata u2 (List.mem_cons_of_mem u hu2))
    refine ⟨reg2, ?_⟩
    simp [procUpdates, ha, hrest]

/-! ### Small utility lemmas -/

theorem flatMap_nil_of {α β : Type} (l : List α) (f : α → List β)
    (h : ∀ a ∈ l, f a = []) : l.flatMap f = [] := by
  induction l with
  | nil => rfl
  | cons a l ih =>
    rw [List.flatMap_cons, h a (by simp), List.nil_append]
    exact ih fun a2 ha2 => h a2 (List.mem_cons_of_mem a ha2)

theorem filterMap_nil_of {α β : Type} (l : List α) (f : α → Option β)
    (h : ∀ a ∈ l, f a = none) : l.filterMap f = [] := by
  induction l with
  | nil => rfl
  | cons a l ih =>
    rw [List.filterMap_cons, h a (by simp)]
    exact ih fun a2 ha2 => h a2 (List.mem_cons_of_mem a ha2)

theorem writeSegment_append (mode : Layout) (objs : List TdmsObject)
    (st st2 : WriterState) (h : writeSegment mode objs st = .ok st2) :
    ∃ ext, st2.file = st.file ++ ext := by
  unfold writeSegment at h
  by_cases hlay : layoutOK mode objs = true
  · rw [if_pos hlay] at h
    match hp : procUpdates st.registry objs with
    | .error e =>
      simp only [hp] at h
      exact absurd h (by simp)
    | .ok (reg2, meta, cds) =>
      simp only [hp, Except.ok.injEq] at h
      exact ⟨encodeSeg ⟨mode, meta, encodeRaw mode cds⟩, by rw [← h]⟩
  · rw [if_neg hlay] at h
    exact absurd h (by simp)

theorem writeMany_append : ∀ (calls : List (Layout × List TdmsObject))
    (st st2 : WriterState), writeMany calls st = .ok st2 →
    ∃ ext, st2.file = st.file ++ ext := by
  intro calls
  induction calls with
  | nil =>
    intro st st2 h
    simp only [writeMany, Except.ok.injEq] at h
    exact ⟨[], by rw [← h]; simp⟩
  | cons cl rest ih =>
    intro st st2 h
    obtain ⟨mode, objs⟩ := cl
    simp only [writeMany] at h
    match hw : writeSegment mode objs st with
    | .error e =>
      simp only [hw] at h
      exact absurd h (by simp)
    | .ok st1 =>
      simp only [hw] at h
      obtain ⟨e1, he1⟩ := writeSegment_append mode objs st st1 hw
      obtain ⟨e2, he2⟩ := ih st1 st2 h
      exact ⟨e1 ++ e2, by rw [he2, he1, List.append_assoc]⟩

/-! ### The claims -/

/-- C1: for every sequence of `writeSegment` calls contributing value arrays
to a channel, after closing and reopening the file, `slice(channel, 0,
length(channel))` returns exactly the concatenation of all contributed
arrays in write order, byte-exact in the declared type (values being raw bit
patterns of the declared width), with nothing reordered, dropped or
deduplicated. -/
theorem claim_C1 (calls : List (Layout × List TdmsObject)) (st2 : WriterState)
    (g c : List Nat) (hval : callsValidB calls = true)
    (h : writeMany calls initState = .ok st2) :
    (openFile st2.file).2 = none ∧
    sliceChannel (openFile st2.file).1 g c 0
        (channelLength (openFile st2.file).1 g c)
      = contributions calls g c := by
  have hval2 : ∀ cl ∈ calls, ∀ u ∈ cl.2, objValidB u = true := by
    intro cl hcl u hu
    simp only [callsValidB, List.all_eq_true] at hval
    have h2 := hval cl hcl
    simp only [List.all_eq_true] at h2
    exact h2 u hu
  obtain ⟨segs, ho, hv, hl, _⟩ := openFile_writeMany calls st2 hval2 h
  rw [ho]
  refine ⟨rfl, ?_⟩
  unfold sliceChannel
  rw [List.drop_zero, Nat.sub_zero, hl g c, hv g c, ← hv g c, hv g c]
  exact List.take_length _

/-- C3: a `writeSegment` call in interleaved mode whose data-bearing channels
have unequal value-array lengths fails with `LayoutError`, and no new writer
state (hence no appended byte) can result from it: the check precedes any
byte production. -/
theorem claim_C3 (objs : List TdmsObject) (st : WriterState) (x y : CData)
    (hx : x ∈ updCDatas objs) (hy : y ∈ updCDatas objs)
    (hlen : x.d.length ≠ y.d.length) :
    writeSegment .interleaved objs st = .error .layoutError ∧
    ∀ st2, writeSegment .interleaved objs st ≠ .ok st2 := by
  have hfalse : ¬ (layoutOK .interleaved objs = true) := by
    intro ht
    exact hlen (sameLens_mem (updCDatas objs) (by simpa [layoutOK] using ht) x hx y hy)
  constructor
  · unfold writeSegment
    rw [if_neg hfalse]
  · intro st2 hok
    unfold writeSegment at hok
    rw [if_neg hfalse] at hok
    exact absurd hok (by simp)

/-- C5: in contiguous mode, encoding a channel's N values across K
`writeSegment` calls of N/K values each yields raw-data bytes whose
concatenation is byte-identical to encoding all N values in one call. -/
theorem claim_C5 (gn cn : List Nat) (t : TdsType) (N K : Nat)
    (parts : List (List Nat)) (d : List Nat) (hK : K ∣ N) (hparts : parts.length = K)
    (hsz : ∀ q ∈ parts, q.length = N / K) (hflat : parts.flatten = d)
    (hd : d.length = N) :
    (parts.map fun q => encodeRaw .contiguous [⟨gn, cn, t, q⟩]).flatten
      = encodeRaw .contiguous [⟨gn, cn, t, d⟩] := by
  subst hflat
  have hone : ∀ q : List Nat,
      encodeRaw .contiguous [(⟨gn, cn, t, q⟩ : CData)] = q.flatMap (encElem t) := by
    intro q
    simp [encodeRaw]
  simp only [hone]
  exact (flatten_flatMap parts (encElem t)).symm

/-- C8: every `writeSegment` call only appends bytes: the file contents up to
the previous length are unchanged afterwards, and a segment once written is
never modified by any later sequence of calls. -/
theorem claim_C8 (mode : Layout) (objs : List TdmsObject) (st st2 : WriterState)
    (h : writeSegment mode objs st = .ok st2) :
    (∃ ext, st2.file = st.file ++ ext) ∧
    st2.file.take st.file.length = st.file ∧
    (∀ rest st3, writeMany rest st2 = .ok st3 →
      st3.file.take st2.file.length = st2.file) := by
  obtain ⟨ext, hext⟩ := writeSegment_append mode objs st st2 h
  refine ⟨⟨ext, hext⟩, ?_, ?_⟩
  · rw [hext]
    exact List.take_left _ _
  · intro rest st3 h3
    obtain ⟨e3, he3⟩ := writeMany_append rest st2 st3 h3
    rw [he3]
    exact List.take_left _ _

/-- C10: opening a valid file that contains no groups succeeds; `groups()`
returns the empty sequence rather than failing, and `NotFoundError` is
raised only by queries naming a specific nonexistent path (here: `channels`
of any group name). -/
theorem claim_C10 (calls : List (Layout × List TdmsObject)) (st2 : WriterState)
    (honly : ∀ cl ∈ calls, ∀ u ∈ cl.2, ∃ props, u = .rootObj props)
    (h : writeMany calls initState = .ok st2) :
    (openFile st2.file).2 = none ∧
    fileGroups (openFile st2.file).1 = [] ∧
    (∀ g, channelsQ (openFile st2.file).1 g = .error .notFound) := by
  have hval : ∀ cl ∈ calls, ∀ u ∈ cl.2, objValidB u = true := by
    intro cl hcl u hu
    obtain ⟨props, rfl⟩ := honly cl hcl u hu
    rfl
  obtain ⟨segs, ho, _, _, hp⟩ := openFile_writeMany calls st2 hval h
  rw [ho]
  have hgroups : fileGroups segs = [] := by
    unfold fileGroups
    have hflat : segs.flatMap segGroupNames = [] := by
      apply flatMap_nil_of
      intro s hs
      apply filterMap_nil_of
      intro e he
      obtain ⟨cl, hcl, u, hu, hpath⟩ := hp s hs e he
      obtain ⟨props, rfl⟩ := honly cl hcl u hu
      rw [hpath]
      rfl
    rw [hflat]
    rfl
  refine ⟨rfl, hgroups, ?_⟩
  intro g
  unfold channelsQ
  rw [hgroups]
  simp

/-- C9: a single segment may mix channels of different element types: such a
`writeSegment` succeeds from a fresh writer, and on read-back each channel's
values come back against its own declared type; the fixed-type invariant
constrains one channel across segments, not distinct channels within one
segment. -/
theorem claim_C9 (gn c1 c2 : List Nat) (t1 t2 : TdsType)
    (p1 p2 : List (List Nat × PropValue)) (d1 d2 : List Nat) (hne : c1 ≠ c2)
    (hv1 : ∀ v ∈ d1, v < 256 ^ tsize t1) (hv2 : ∀ v ∈ d2, v < 256 ^ tsize t2) :
    ∃ st, writeSegment .contiguous
        [.chanObj gn c1 t1 p1 d1, .chanObj gn c2 t2 p2 d2] initState = .ok st ∧
      (openFile st.file).2 = none ∧
      channelValues (openFile st.file).1 gn c1 = d1 ∧
      channelValues (openFile st.file).1 gn c2 = d2 ∧
      chanDtype (openFile st.file).1 gn c1 = some t1 ∧
      chanDtype (openFile st.file).1 gn c2 = some t2 := by
  have hne21 : ¬ (gn = gn ∧ c2 = c1) := fun hh => hne hh.2.symm
  have hne12 : ¬ (gn = gn ∧ c1 = c2) := fun hh => hne hh.2
  have hne2 : ¬ (c2 = c1) := fun hh => hne hh.symm
  have hkne : ¬ ((gn, c1) = (gn, c2)) := by
    intro hh
    injection hh with _ hc
    exact hne hc
  set e1 : MetaEntry := ⟨.channel gn c1, p1, some (t1, d1.length)⟩ with he1def
  set e2 : MetaEntry := ⟨.channel gn c2, p2, some (t2, d2.length)⟩ with he2def
  set cds : List CData := [⟨gn, c1, t1, d1⟩, ⟨gn, c2, t2, d2⟩] with hcdsdef
  set seg : Seg := ⟨.contiguous, [e1, e2], encodeRaw .contiguous cds⟩ with hsegdef
  have hproc : procUpdates initState.registry
      [.chanObj gn c1 t1 p1 d1, .chanObj gn c2 t2 p2 d2]
      = .ok ([(ObjPath.channel gn c1, ⟨p1, some t1, d1.length⟩),
              (ObjPath.channel gn c2, ⟨p2, some t2, d2.length⟩)], [e1, e2], cds) := by
    simp [procUpdates, applyUpdate, initState, lookupReg, updateReg, hne, he1def,
      he2def, hcdsdef]
  have hws : writeSegment .contiguous
      [.chanObj gn c1 t1 p1 d1, .chanObj gn c2 t2 p2 d2] initState
      = .ok ⟨[(ObjPath.channel gn c1, ⟨p1, some t1, d1.length⟩),
              (ObjPath.channel gn c2, ⟨p2, some t2, d2.length⟩)],
             initState.file ++ encodeSeg seg⟩ := by
    have hlay : layoutOK Layout.contiguous
        [TdmsObject.chanObj gn c1 t1 p1 d1, TdmsObject.chanObj gn c2 t2 p2 d2]
        = true := rfl
    unfold writeSegment
    rw [if_pos hlay, hproc]
  have hfile : initState.file ++ encodeSeg seg = encodeSeg seg := by
    simp [initState]
  have hch : segChans seg = cds.map CData.hdr := by
    simp [hsegdef, segChans, he1def, he2def, hcdsdef, CData.hdr]
  have hint : seg.mode = .interleaved → ∀ x ∈ cds, x.d = [] ∨ x.d.length = maxLen cds := by
    intro hmode
    rw [hsegdef] at hmode
    simp at hmode
  have hvx : ∀ x ∈ cds, ∀ v ∈ x.d, v < 256 ^ tsize x.t := by
    intro x hx
    rw [hcdsdef] at hx
    rcases List.mem_cons.mp hx with h1 | h1
    · subst h1; exact hv1
    · simp at h1
      subst h1
      exact hv2
  have hopen : openFile (encodeSeg seg) = ([seg], none) := by
    have hscan : scanF (encodeSeg seg).length (encodeSeg seg) 0 = ([seg], none) := by
      have h2 := scanF_flatten_nil [seg] (encodeSeg seg).length (by simp)
      simpa using h2
    have hrt : (readTypes [] [seg]).isSome = true := by
      simp [readTypes, hch, hcdsdef, CData.hdr, addTypes, lookupT, hkne]
    unfold openFile
    simp only [hscan, hrt, if_true]
  have hraw : seg.raw = encodeRaw seg.mode cds := by
    rw [hsegdef]
  have hvals := segValues_eq seg cds
  refine ⟨_, hws, ?_, ?_, ?_, ?_, ?_⟩
  · simp only [hfile, hopen]
  · simp only [hfile, hopen, channelValues, List.flatMap_cons, List.flatMap_nil,
      List.append_nil]
    rw [segValues_eq seg cds gn c1 hch hraw hint hvx]
    simp [hcdsdef, List.filter_cons, hne21, hne2, hne]
  · simp only [hfile, hopen, channelValues, List.flatMap_cons, List.flatMap_nil,
      List.append_nil]
    rw [segValues_eq seg cds gn c2 hch hraw hint hvx]
    simp [hcdsdef, List.filter_cons, hne12, hne2, hne]
  · simp only [hfile, hopen]
    unfold chanDtype
    simp [hch, hcdsdef, CData.hdr, List.filterMap_cons, hne21, hne2, hne]
  · simp only [hfile, hopen]
    unfold chanDtype
    simp [hch, hcdsdef, CData.hdr, List.filterMap_cons, hne12, hne2, hne]

/-- C2: a channel's value type is fixed at its first write: a later
`writeSegment` supplying a different type for that channel fails with
`TypeConflictError`, a later conflicting segment encountered on read makes
`open` surface `TypeConflictError`, and in both cases the data written up to
the last successfully written segment — here the first segment's data —
remains readable. -/
theorem claim_C2 (gn cn : List Nat) (t1 t2 : TdsType)
    (p1 p2 : List (List Nat × PropValue)) (d1 d2 : List Nat)
    (mode1 mode2 : Layout) (st1 : WriterState) (hne : t1 ≠ t2)
    (hv1 : objValidB (.chanObj gn cn t1 p1 d1) = true)
    (h1 : writeSegment mode1 [.chanObj gn cn t1 p1 d1] initState = .ok st1) :
    writeSegment mode2 [.chanObj gn cn t2 p2 d2] st1 = .error .typeConflict ∧
    (openFile st1.file).2 = none ∧
    sliceChannel (openFile st1.file).1 gn cn 0
        (channelLength (openFile st1.file).1 gn cn) = d1 ∧
    (openFile (st1.file ++
        encodeSeg ⟨.contiguous, [⟨.channel gn cn, [], some (t2, 0)⟩], []⟩)).2
      = some .typeConflict := by
  -- the explicit state produced by the first write
  have h1c := h1
  unfold writeSegment at h1c
  rw [if_pos (layoutOK_single mode1 _)] at h1c
  have hproc1 : procUpdates initState.registry [.chanObj gn cn t1 p1 d1]
      = .ok ([(ObjPath.channel gn cn, ⟨p1, some t1, d1.length⟩)],
             [⟨.channel gn cn, p1, some (t1, d1.length)⟩], [⟨gn, cn, t1, d1⟩]) := by
    simp [procUpdates, applyUpdate, initState, lookupReg, updateReg]
  rw [hproc1] at h1c
  simp only [Except.ok.injEq] at h1c
  have hreg : st1.registry = [(ObjPath.channel gn cn, ⟨p1, some t1, d1.length⟩)] := by
    rw [← h1c]
  -- the whole session consisting of the first call
  have hw1 : writeMany [(mode1, [TdmsObject.chanObj gn cn t1 p1 d1])] initState
      = .ok st1 := by
    simp [writeMany, h1]
  have hval : ∀ cl ∈ [((mode1 : Layout), [TdmsObject.chanObj gn cn t1 p1 d1])],
      ∀ u ∈ cl.2, objValidB u = true := by
    intro cl hcl u hu
    simp only [List.mem_singleton] at hcl
    subst hcl
    simp only [List.mem_singleton] at hu
    subst hu
    exact hv1
  obtain ⟨segs, tm2, hf, ht, hagree, hv', hl', _⟩ :=
    writeMany_build [(mode1, [.chanObj gn cn t1 p1 d1])] initState st1 [] hval hw1
      agree_init
  simp only [initState, List.nil_append] at hf
  have hopen1 : openFile st1.file = (segs, none) := by
    have hscan : scanF st1.file.length st1.file 0 = (segs, none) := by
      rw [hf]
      exact scanF_flatten_nil segs _ (Nat.le_refl _)
    unfold openFile
    simp only [hscan, ht, Option.isSome_some, if_true]
  refine ⟨?_, ?_, ?_, ?_⟩
  · -- second conflicting write fails
    unfold writeSegment
    rw [if_pos (layoutOK_single mode2 _)]
    have hproc2 : procUpdates st1.registry [.chanObj gn cn t2 p2 d2]
        = .error .typeConflict := by
      rw [hreg]
      simp [procUpdates, applyUpdate, lookupReg, hne]
    rw [hproc2]
  · rw [hopen1]
  · rw [hopen1]
    unfold sliceChannel
    rw [List.drop_zero, Nat.sub_zero, hl' gn cn, hv' gn cn, ← hv' gn cn, hv' gn cn,
      List.take_length]
    simp [contributions, callData]
  · -- a later conflicting segment encountered on read
    set conf : Seg := ⟨.contiguous, [⟨.channel gn cn, [], some (t2, 0)⟩], []⟩ with hconf
    have hfile2 : st1.file ++ encodeSeg conf
        = (((segs ++ [conf]).map encodeSeg)).flatten := by
      rw [hf]
      simp
    have hscan2 : scanF (st1.file ++ encodeSeg conf).length
        (st1.file ++ encodeSeg conf) 0 = (segs ++ [conf], none) := by
      rw [hfile2]
      exact scanF_flatten_nil _ _ (Nat.le_refl _)
    have hchconf : segChans conf = [⟨gn, cn, t2, 0⟩] := rfl
    have hlt : lookupT tm2 (gn, cn) = some t1 := by
      rw [hagree gn cn, hreg]
      simp [regChanType, lookupReg]
    have hrt2 : readTypes [] (segs ++ [conf]) = none := by
      rw [readTypes_append, ht]
      simp only [readTypes, hchconf, addTypes, hlt]
      rw [if_neg hne]
    unfold openFile
    simp only [hscan2, hrt2]
    simp
/-- C4: writing the same property set a second time produces an empty
metadata diff for every object path (`diffForSegment` returns only changed
properties), so a second `writeSegment` that only repeats properties
succeeds and grows the file by exactly one minimal-size segment. -/
theorem claim_C4 (mode1 mode2 : Layout) (objs : List TdmsObject) (st0 st1 : WriterState)
    (hdistinct : (objs.map pathOf).Nodup)
    (hkeys : ∀ u ∈ objs, ((propsOf u).map Prod.fst).Nodup)
    (h1 : writeSegment mode1 objs st0 = .ok st1) :
    (∀ u ∈ objs, diffForSegment st1.registry (pathOf u) (propsOf u) = []) ∧
    ∃ st2, writeSegment mode2 (objs.map repeatOf) st1 = .ok st2 ∧
      st2.file.length = st1.file.length + minSegSize := by
  have h1c := h1
  unfold writeSegment at h1c
  by_cases hlay1 : layoutOK mode1 objs = true
  · rw [if_pos hlay1] at h1c
    match hp : procUpdates st0.registry objs with
    | .error e =>
      simp only [hp] at h1c
      exact absurd h1c (by simp)
    | .ok (reg2, meta, cds) =>
      simp only [hp, Except.ok.injEq] at h1c
      have hreg : st1.registry = reg2 := by rw [← h1c]
      have hafter := procUpdates_after objs st0.registry reg2 meta cds hp hdistinct hkeys
      constructor
      · intro u hu
        obtain ⟨e, hle, hp2, _⟩ := hafter u hu
        unfold diffForSegment
        rw [hreg, hle]
        exact diffProps_nil_of e.props (propsOf u) hp2
      · have hok2 : ∀ u2 ∈ objs.map repeatOf, EntryOK st1.registry u2 := by
          intro u2 hu2
          obtain ⟨u, hu, rfl⟩ := List.mem_map.mp hu2
          obtain ⟨e, hle, hp2, ht2⟩ := hafter u hu
          refine ⟨e, ?_, ?_, ?_⟩
          · rw [pathOf_repeatOf, hreg]
            exact hle
          · rw [propsOf_repeatOf]
            exact hp2
          · intro g c t p d hrep
            cases u with
            | rootObj props => simp [repeatOf] at hrep
            | groupObj g0 props => simp [repeatOf] at hrep
            | chanObj g0 c0 t0 p0 d0 =>
              simp only [repeatOf] at hrep
              injection hrep with hg hc ht hp0 hd
              exact ht2 g0 c0 t0 p0 d0 rfl |>.trans (by rw [ht])
        have hnd2 : ((objs.map repeatOf).map pathOf).Nodup := by
          rw [List.map_map]
          have hcomp : (pathOf ∘ repeatOf) = pathOf := funext pathOf_repeatOf
          rw [hcomp]
          exact hdistinct
        have hdata2 : ∀ u2 ∈ objs.map repeatOf, ∀ g c t p d,
            u2 = .chanObj g c t p d → d = [] := by
          intro u2 hu2 g c t p d hrep
          obtain ⟨u, _, rfl⟩ := List.mem_map.mp hu2
          cases u with
          | rootObj props => simp [repeatOf] at hrep
          | groupObj g0 props => simp [repeatOf] at hrep
          | chanObj g0 c0 t0 p0 d0 =>
            simp only [repeatOf] at hrep
            injection hrep with _ _ _ _ hd
            exact hd.symm
        obtain ⟨reg3, hproc3⟩ :=
          procUpdates_repeat (objs.map repeatOf) st1.registry hok2 hnd2 hdata2
        have hupd : updCDatas (objs.map repeatOf) = [] := by
          unfold updCDatas
          apply filterMap_nil_of
          intro u2 hu2
          obtain ⟨u, _, rfl⟩ := List.mem_map.mp hu2
          cases u <;> simp [repeatOf]
        have hlay2 : layoutOK mode2 (objs.map repeatOf) = true := by
          cases mode2 with
          | contiguous => rfl
          | interleaved => simp [layoutOK, hupd, sameLens]
        refine ⟨⟨reg3, st1.file ++ encodeSeg ⟨mode2, [], encodeRaw mode2 []⟩⟩, ?_, ?_⟩
        · unfold writeSegment
          rw [if_pos hlay2, hproc3]
        · simp only [List.length_append, encodeRaw_nil, encodeSeg_empty_length]
  · rw [if_neg hlay1] at h1c
    exact absurd h1c (by simp)

/-- C6: truncating a valid multi-segment file strictly inside a segment makes
`open` surface `CorruptFileError` carrying the truncation offset (the length
of the truncated file); indexing stops there, and the index — hence
`groups()` and `channels()` — equals exactly that of the fully indexed prior
segments. -/
theorem claim_C6 (segs1 : List Seg) (s : Seg) (segs2 : List Seg) (p cut : List Nat)
    (hsplit : p ++ cut = encodeSeg s) (hp : p ≠ []) (hcut : cut ≠ [])
    (hvalid : (openFile (((segs1 ++ s :: segs2).map encodeSeg).flatten)).2 = none) :
    ((segs1.map encodeSeg).flatten ++ p
      = ((((segs1 ++ s :: segs2).map encodeSeg).flatten).take
          ((segs1.map encodeSeg).flatten ++ p).length)) ∧
    openFile ((segs1.map encodeSeg).flatten ++ p)
      = (segs1, some (.corruptFile ((segs1.map encodeSeg).flatten ++ p).length)) ∧
    fileGroups (openFile ((segs1.map encodeSeg).flatten ++ p)).1 = fileGroups segs1 ∧
    (∀ g, fileChannels (openFile ((segs1.map encodeSeg).flatten ++ p)).1 g
      = fileChannels segs1 g) := by
  have hopen : openFile ((segs1.map encodeSeg).flatten ++ p)
      = (segs1, some (.corruptFile ((segs1.map encodeSeg).flatten ++ p).length)) := by
    have hscan := scanF_flatten segs1 p 0 ((segs1.map encodeSeg).flatten ++ p).length
      (Nat.le_refl _)
    have htail := scanF_truncated_tail p.length s p cut
      (0 + (segs1.map encodeSeg).flatten.length) (Nat.le_refl _) hp hcut hsplit
    rw [htail] at hscan
    unfold openFile
    simp only [hscan]
    simp [List.length_append]
  refine ⟨?_, hopen, ?_, ?_⟩
  · have htake : ((((segs1 ++ s :: segs2).map encodeSeg).flatten).take
        ((segs1.map encodeSeg).flatten ++ p).length)
        = (segs1.map encodeSeg).flatten ++ p := by
      rw [List.length_append]
      have hexp : (((segs1 ++ s :: segs2).map encodeSeg).flatten)
          = (segs1.map encodeSeg).flatten
            ++ (encodeSeg s ++ (segs2.map encodeSeg).flatten) := by
        simp [List.map_append, List.flatten_append]
      rw [hexp, List.take_add, List.take_left, List.drop_left, ← hsplit,
        List.append_assoc, List.take_left]
    exact htake.symm
  · rw [hopen]
  · intro g
    rw [hopen]

/-! ### Concrete data for the interleaved example and the witnesses -/

set_option maxRecDepth 100000

def c7g : List Nat := [71, 49]

def c7A : List Nat := [67, 49]

def c7B : List Nat := [67, 50]

def c7dataA : List Nat := [0, 1, 2, 3, 4, 5, 6, 7, 8, 9]

/-- The IEEE-754 float64 bit patterns of 0.0, 2.0, 4.0, ..., 18.0. -/
def c7dataB : List Nat :=
  [0, 4611686018427387904, 4616189618054758400, 4618441417868443648,
   4620693217682128896, 4621819117588971520, 4622945017495814144,
   4624070917402656768, 4625196817309499392, 4625759767262920704]

def c7objs : List TdmsObject :=
  [.chanObj c7g c7A .int32 [] c7dataA, .chanObj c7g c7B .float64 [] c7dataB]

def c7res : Except TdmsError WriterState := writeSegment .interleaved c7objs initState

def c7file : List Nat :=
  match c7res with
  | .ok st => st.file
  | .error _ => []

/-- C7: writing two channels of length 10 (an int32 counter 0..9 and a
float64 channel 0.0, 2.0, ..., 18.0) in interleaved mode in one segment and
reading the file back returns each channel exactly in input order, no value
dropped or reordered. -/
theorem claim_C7 :
    (match c7res with | .ok _ => true | .error _ => false) = true ∧
    (openFile c7file).2 = none ∧
    channelValues (openFile c7file).1 c7g c7A = c7dataA ∧
    channelValues (openFile c7file).1 c7g c7B = c7dataB :=
  ⟨rfl, rfl, rfl, rfl⟩

def wG : List Nat := [71]

def wC : List Nat := [67]

def wC2 : List Nat := [68]

def c1calls : List (Layout × List TdmsObject) :=
  [(.contiguous, [.chanObj wG wC .int32 [] [5, 6]]),
   (.interleaved, [.chanObj wG wC .int32 [] [7]])]

def c1st : WriterState :=
  match writeMany c1calls initState with
  | .ok st => st
  | .error _ => initState

/-- Witness for C1 at a concrete two-call session. -/
theorem claim_C1_witness :
    callsValidB c1calls = true ∧
    writeMany c1calls initState = .ok c1st ∧
    ((openFile c1st.file).2 = none ∧
      sliceChannel (openFile c1st.file).1 wG wC 0
        (channelLength (openFile c1st.file).1 wG wC) = contributions c1calls wG wC) :=
  ⟨by decide, rfl, claim_C1 c1calls c1st wG wC (by decide) rfl⟩

def c2st : WriterState :=
  match writeSegment .contiguous [.chanObj wG wC .int32 [] [1]] initState with
  | .ok st => st
  | .error _ => initState

/-- Witness for C2: int32 then float64 on the same channel. -/
theorem claim_C2_witness :
    (TdsType.int32 ≠ TdsType.float64) ∧
    objValidB (.chanObj wG wC .int32 [] [1]) = true ∧
    writeSegment .contiguous [.chanObj wG wC .int32 [] [1]] initState = .ok c2st ∧
    (writeSegment .contiguous [.chanObj wG wC .float64 [] [2]] c2st
        = .error .typeConflict ∧
      (openFile c2st.file).2 = none ∧
      sliceChannel (openFile c2st.file).1 wG wC 0
          (channelLength (openFile c2st.file).1 wG wC) = [1] ∧
      (openFile (c2st.file ++
          encodeSeg ⟨.contiguous, [⟨.channel wG wC, [], some (.float64, 0)⟩], []⟩)).2
        = some .typeConflict) :=
  ⟨by decide, by decide, rfl,
    claim_C2 wG wC .int32 .float64 [] [] [1] [2] .contiguous .contiguous c2st
      (by decide) (by decide) rfl⟩

def c3objs : List TdmsObject :=
  [.chanObj wG wC .int32 [] [1, 2], .chanObj wG wC2 .int32 [] [3]]

/-- Witness for C3: two interleaved channels of lengths 2 and 1. -/
theorem claim_C3_witness :
    ((⟨wG, wC, .int32, [1, 2]⟩ : CData) ∈ updCDatas c3objs) ∧
    ((⟨wG, wC2, .int32, [3]⟩ : CData) ∈ updCDatas c3objs) ∧
    (([1, 2] : List Nat).length ≠ ([3] : List Nat).length) ∧
    (writeSegment .interleaved c3objs initState = .error .layoutError ∧
      ∀ st2, writeSegment .interleaved c3objs initState ≠ .ok st2) :=
  ⟨by decide, by decide, by decide,
    claim_C3 c3objs initState ⟨wG, wC, .int32, [1, 2]⟩ ⟨wG, wC2, .int32, [3]⟩
      (by decide) (by decide) (by decide)⟩

def c4objs : List TdmsObject :=
  [.rootObj [([97], .pInt32 1)], .groupObj wG [([98], .pBool true)],
   .chanObj wG wC .int32 [([99], .pFloat64 7)] [1]]

def c4st : WriterState :=
  match writeSegment .contiguous c4objs initState with
  | .ok st => st
  | .error _ => initState

/-- Witness for C4 at a concrete root/group/channel write. -/
theorem claim_C4_witness :
    (c4objs.map pathOf).Nodup ∧
    (∀ u ∈ c4objs, ((propsOf u).map Prod.fst).Nodup) ∧
    writeSegment .contiguous c4objs initState = .ok c4st ∧
    ((∀ u ∈ c4objs, diffForSegment c4st.registry (pathOf u) (propsOf u) = []) ∧
      ∃ st2, writeSegment .contiguous (c4objs.map repeatOf) c4st = .ok st2 ∧
        st2.file.length = c4st.file.length + minSegSize) :=
  ⟨by decide, by decide, rfl,
    claim_C4 .contiguous .contiguous c4objs initState c4st (by decide) (by decide) rfl⟩

/-- Witness for C5: 4 values split into 2 parts of 2. -/
theorem claim_C5_witness :
    (2 ∣ 4) ∧ ([[1, 2], [3, 4]] : List (List Nat)).length = 2 ∧
    (∀ q ∈ ([[1, 2], [3, 4]] : List (List Nat)), q.length = 4 / 2) ∧
    ([[1, 2], [3, 4]] : List (List Nat)).flatten = [1, 2, 3, 4] ∧
    ([1, 2, 3, 4] : List Nat).length = 4 ∧
    (([[1, 2], [3, 4]] : List (List Nat)).map
        (fun q => encodeRaw .contiguous [⟨wG, wC, .int32, q⟩])).flatten
      = encodeRaw .contiguous [⟨wG, wC, .int32, [1, 2, 3, 4]⟩] :=
  ⟨by decide, by decide, by decide, by decide, by decide,
    claim_C5 wG wC .int32 4 2 [[1, 2], [3, 4]] [1, 2, 3, 4] (by decide) (by decide)
      (by decide) (by decide) (by decide)⟩

def c6s : Seg := ⟨.contiguous, [], []⟩

def c6p : List Nat := (encodeSeg c6s).take 3

def c6cut : List Nat := (encodeSeg c6s).drop 3

/-- Witness for C6: a two-segment file cut three bytes into its second
segment. -/
theorem claim_C6_witness :
    c6p ++ c6cut = encodeSeg c6s ∧ c6p ≠ [] ∧ c6cut ≠ [] ∧
    (openFile ((([c6s] ++ c6s :: []).map encodeSeg).flatten)).2 = none ∧
    ((([c6s].map encodeSeg).flatten ++ c6p
        = (((([c6s] ++ c6s :: []).map encodeSeg).flatten).take
            (([c6s].map encodeSeg).flatten ++ c6p).length)) ∧
      openFile (([c6s].map encodeSeg).flatten ++ c6p)
        = ([c6s], some (.corruptFile (([c6s].map encodeSeg).flatten ++ c6p).length)) ∧
      fileGroups (openFile (([c6s].map encodeSeg).flatten ++ c6p)).1
        = fileGroups [c6s] ∧
      (∀ g, fileChannels (openFile (([c6s].map encodeSeg).flatten ++ c6p)).1 g
        = fileChannels [c6s] g)) :=
  ⟨by decide, by decide, by decide, by decide,
    claim_C6 [c6s] c6s [] c6p c6cut (by decide) (by decide) (by decide) (by decide)⟩

def c8st : WriterState :=
  match writeSegment .contiguous [.rootObj []] initState with
  | .ok st => st
  | .error _ => initState

/-- Witness for C8 at a concrete metadata-only write. -/
theorem claim_C8_witness :
    writeSegment .contiguous [.rootObj []] initState = .ok c8st ∧
    ((∃ ext, c8st.file = initState.file ++ ext) ∧
      c8st.file.take initState.file.length = initState.file ∧
      (∀ rest st3, writeMany rest c8st = .ok st3 →
        st3.file.take c8st.file.length = c8st.file)) :=
  ⟨rfl, claim_C8 .contiguous [.rootObj []] initState c8st rfl⟩

/-- Witness for C9: an int32 and a float64 channel in one segment. -/
theorem claim_C9_witness :
    wC ≠ wC2 ∧
    (∀ v ∈ ([1, 2] : List Nat), v < 256 ^ tsize .int32) ∧
    (∀ v ∈ ([3] : List Nat), v < 256 ^ tsize .float64) ∧
    (∃ st, writeSegment .contiguous
        [.chanObj wG wC .int32 [] [1, 2], .chanObj wG wC2 .float64 [] [3]]
        initState = .ok st ∧
      (openFile st.file).2 = none ∧
      channelValues (openFile st.file).1 wG wC = [1, 2] ∧
      channelValues (openFile st.file).1 wG wC2 = [3] ∧
      chanDtype (openFile st.file).1 wG wC = some .int32 ∧
      chanDtype (openFile st.file).1 wG wC2 = some .float64) :=
  ⟨by decide, by decide, by decide,
    claim_C9 wG wC wC2 .int32 .float64 [] [] [1, 2] [3] (by decide) (by decide)
      (by decide)⟩

def c10calls : List (Layout × List TdmsObject) :=
  [(.contiguous, [.rootObj [([97], .pString [104, 105])]])]

def c10st : WriterState :=
  match writeMany c10calls initState with
  | .ok st => st
  | .error _ => initState

/-- Witness for C10: a file holding only root-object properties. -/
theorem claim_C10_witness :
    (∀ cl ∈ c10calls, ∀ u ∈ cl.2, ∃ props, u = .rootObj props) ∧
    writeMany c10calls initState = .ok c10st ∧
    ((openFile c10st.file).2 = none ∧
      fileGroups (openFile c10st.file).1 = [] ∧
      (∀ g, channelsQ (openFile c10st.file).1 g = .error .notFound)) :=
  ⟨by
    intro cl hcl u hu
    simp only [c10calls, List.mem_singleton] at hcl
    subst hcl
    simp only [List.mem_singleton] at hu
    subst hu
    exact ⟨_, rfl⟩,
   rfl,
   claim_C10 c10calls c10st
     (by
       intro cl hcl u hu
       simp only [c10calls, List.mem_singleton] at hcl
       subst hcl
       simp only [List.mem_singleton] at hu
       subst hu
       exact ⟨_, rfl⟩)
     rfl⟩

end Tdms
